import Mathlib

/-!
# Verification of the colamusic-api core subsystem

Shallow embedding of the request execution, concurrency-bounding and tiered
caching subsystem of the repository (HttpClient, Semaphore, MemoryCache,
CacheManager, BasePlatformAdapter batch operations, AdapterManager), together
with proofs and refutations of the specified properties.

JavaScript `Map` objects are modelled as association lists in insertion order:
`Map.set` updates an existing key in place (keeping its position) and appends a
fresh key at the end, exactly as ECMAScript `Map` iteration order prescribes.
Timestamps (`Date.now()`) are explicit `Nat` parameters.
-/

namespace ColaMusic

/-! ## JavaScript `Map` model -/

/-- `Map.get`: value of the first (and, for well-formed maps, only) binding. -/
def mapGet [BEq κ] (m : List (κ × β)) (k : κ) : Option β :=
  match m with
  | [] => none
  | p :: rest => if p.1 == k then some p.2 else mapGet rest k

/-- `Map.set`: replace the first binding of `k` in place (keeping its position
in iteration order), otherwise append a fresh binding at the end. -/
def mapSet [BEq κ] (m : List (κ × β)) (k : κ) (v : β) : List (κ × β) :=
  match m with
  | [] => [(k, v)]
  | p :: rest => if p.1 == k then (k, v) :: rest else p :: mapSet rest k v

/-- `Map.delete`: remove the binding of `k` (all of them, in a raw list). -/
def mapDelete [BEq κ] (m : List (κ × β)) (k : κ) : List (κ × β) :=
  m.filter (fun p => !(p.1 == k))

/-! ## Transport: `HttpClient` (src/unnamed/part_000)

One HTTP attempt either yields a response (success interceptor fires) or an
error (error interceptor fires).  An axios error carries an optional Node
error `code` and an optional HTTP `status`; attempt wall-clock time is the
`responseTime` computed from the interceptor metadata, which the request
interceptor always attaches. -/

/-- Outcome of a single low-level HTTP attempt. -/
inductive AttemptOutcome where
  | success (responseTime : Nat)
  | failure (code : Option String) (status : Option Nat) (responseTime : Nat)
  deriving DecidableEq, Repr

/-- The three performance counters of `HttpClient`. -/
structure HttpMetricsState where
  requestCount : Nat
  errorCount : Nat
  totalResponseTime : Nat
  deriving DecidableEq, Repr

/-- Counters at construction time. -/
def initHttpMetrics : HttpMetricsState := ⟨0, 0, 0⟩

/-- Effect of the axios interceptors on the counters for one attempt:
the success interceptor runs `updateMetrics` (`requestCount++` plus response
time); the error interceptor runs `errorCount++` plus response time. -/
def recordAttempt (s : HttpMetricsState) (o : AttemptOutcome) : HttpMetricsState :=
  match o with
  | .success rt =>
      { s with requestCount := s.requestCount + 1,
               totalResponseTime := s.totalResponseTime + rt }
  | .failure _ _ rt =>
      { s with errorCount := s.errorCount + 1,
               totalResponseTime := s.totalResponseTime + rt }

/-- `getMetrics().errorRate = requestCount > 0 ? errorCount / requestCount : 0`. -/
def HttpMetricsState.errorRate (s : HttpMetricsState) : ℚ :=
  if 0 < s.requestCount then (s.errorCount : ℚ) / (s.requestCount : ℚ) else 0

/-- `HttpClient.shouldRetry`.  `retries` is `config.retries`; JavaScript
`undefined >= 500` and `undefined === 429` are both false, so an absent status
never matches the status tests. -/
def shouldRetry (retries : Nat) (code : Option String) (status : Option Nat)
    (retryCount : Nat) : Bool :=
  if retries ≤ retryCount then false
  else if code == some "ECONNRESET" || code == some "ETIMEDOUT" ||
          code == some "ECONNREFUSED" || code == some "ENOTFOUND" then true
  else
    match status with
    | some st => decide (500 ≤ st) || st == 429
    | none => false

inductive ReqResult where
  | ok (responseTime : Nat)
  | apiError (code : Option String) (status : Option Nat) (retryable : Bool)
  deriving DecidableEq, Repr

/-- `HttpClient.requestWithRetry`.  `env i` is the outcome of the `i`-th
attempt (the attempt performed with `retryCount = i`).  Returns the counters
after the call, the number of attempts performed, and the call result.  The
terminal `ApiError` carries `retryable = shouldRetry(error, 0)` exactly as
`createApiError` computes it. -/
def requestWithRetry (retries : Nat) (env : Nat → AttemptOutcome)
    (s : HttpMetricsState) (retryCount : Nat) :
    HttpMetricsState × Nat × ReqResult :=
  match env retryCount with
  | .success rt => (recordAttempt s (.success rt), 1, .ok rt)
  | .failure code status rt =>
      let s1 := recordAttempt s (.failure code status rt)
      if h : shouldRetry retries code status retryCount = true then
        let r := requestWithRetry retries env s1 (retryCount + 1)
        (r.1, r.2.1 + 1, r.2.2)
      else
        (s1, 1, .apiError code status (shouldRetry retries code status 0))
termination_by retries - retryCount
decreasing_by
  have hlt : retryCount < retries := by
    by_contra hc
    simp [shouldRetry, Nat.le_of_not_lt hc] at h
  omega

/-! ## Orchestrator aggregate metrics (src/src/core/AdapterManager.ts)

`AdapterManager.updateMetrics` increments `requestCount` and then, on failure,
reconstructs an error count from the stored rate with
`Math.floor(requestCount * errorRate) + 1` before recomputing the rate.
Rates are exact rationals here; `Math.floor` is `Int.floor`. -/

/-- The fields of `PerformanceMetrics` that `updateMetrics` touches. -/
structure PerformanceMetrics where
  requestCount : Nat
  averageResponseTime : ℚ
  errorRate : ℚ

/-- `AdapterManager.initializeMetrics` restricted to the same fields. -/
def initPerfMetrics : PerformanceMetrics := ⟨0, 0, 0⟩

/-- `AdapterManager.updateMetrics(operation, responseTime, success)`.  The
`operation` string does not influence the computation and is omitted. -/
def updateMetrics (m : PerformanceMetrics) (responseTime : Nat) (success : Bool) :
    PerformanceMetrics :=
  let rc := m.requestCount + 1
  if success then
    { m with requestCount := rc,
             averageResponseTime :=
               (m.averageResponseTime * ((rc : ℚ) - 1) + (responseTime : ℚ)) / (rc : ℚ) }
  else
    let errorCount : ℤ := ⌊(rc : ℚ) * m.errorRate⌋ + 1
    { m with requestCount := rc, errorRate := (errorCount : ℚ) / (rc : ℚ) }

/-- The attempt outcomes of an endpoint that fails with HTTP 500 on the first
two attempts and succeeds on the third. -/
def envFailTwice : Nat → AttemptOutcome := fun i =>
  if i < 2 then .failure none (some 500) 5 else .success 7

/-- The retry predicate exactly as the spec words it (`Modelled from the
spec` only in the sense of a refinement target: retry while
`attempt < maxRetries` and the failure is a transient network error, a 5xx
status, or status 429).  Compared against the source's `shouldRetry`. -/
def retrySpec (maxRetries : Nat) (code : Option String) (status : Option Nat)
    (attempt : Nat) : Prop :=
  attempt < maxRetries ∧
    (code = some "ECONNRESET" ∨ code = some "ETIMEDOUT" ∨
     code = some "ECONNREFUSED" ∨ code = some "ENOTFOUND" ∨
     ∃ st, status = some st ∧ (500 ≤ st ∨ st = 429))

/-! ## L1 cache: `MemoryCache` (src/src/core/AdapterManager.ts)

State of one `MemoryCache` instance: the `cache` map, the `accessOrder` map
(key → monotone access counter value), the hit/miss statistics and the running
`accessCounter`.  `Date.now()` is an explicit `now` argument to each
operation. -/

/-- The `CacheConfig` fields the cache layer reads. -/
structure CacheConfig where
  ttl : Nat
  maxSize : Nat
  enableL1 : Bool
  enableL2 : Bool

/-- `CacheItem` minus the redundant `key` field (the map key itself). -/
structure CacheItem (α : Type) where
  value : α
  ttl : Nat
  createdAt : Nat
  accessCount : Nat
  lastAccessed : Nat
  deriving DecidableEq, Repr

/-- Mutable fields of a `MemoryCache` instance. -/
structure MemoryCacheState (α : Type) where
  cache : List (String × CacheItem α)
  accessOrder : List (String × Nat)
  hits : Nat
  misses : Nat
  accessCounter : Nat
  deriving DecidableEq, Repr

/-- Freshly constructed cache. -/
def initCache : MemoryCacheState α := ⟨[], [], 0, 0, 0⟩

/-- `isExpired`: `Date.now() - item.createdAt > item.ttl` (clocks are
monotone, so the JS subtraction is non-negative and `Nat` subtraction is
faithful). -/
def isExpired (now : Nat) (item : CacheItem α) : Bool :=
  decide (item.ttl < now - item.createdAt)

/-- `MemoryCache.delete` (the boolean return value is unused by callers). -/
def MemoryCache.delete (s : MemoryCacheState α) (key : String) : MemoryCacheState α :=
  { s with cache := mapDelete s.cache key, accessOrder := mapDelete s.accessOrder key }

/-- `MemoryCache.get`: returns the value (or `null`) together with the updated
state.  A hit bumps the item's access info and the access order; an expired
entry is deleted and counted as a miss. -/
def MemoryCache.get (s : MemoryCacheState α) (now : Nat) (key : String) :
    Option α × MemoryCacheState α :=
  match mapGet s.cache key with
  | none => (none, { s with misses := s.misses + 1 })
  | some item =>
    if isExpired now item then
      let s1 := MemoryCache.delete s key
      (none, { s1 with misses := s1.misses + 1 })
    else
      let item1 := { item with accessCount := item.accessCount + 1, lastAccessed := now }
      (some item1.value,
        { s with cache := mapSet s.cache key item1,
                 accessOrder := mapSet s.accessOrder key (s.accessCounter + 1),
                 accessCounter := s.accessCounter + 1,
                 hits := s.hits + 1 })

/-- The loop body of `evictLeastUsed`: running minimum over `accessOrder`
(`lruOrder` starts at `Infinity`, so the first entry always becomes the
candidate; comparison is strict `<`, so the first minimal entry wins). -/
def findLruAux (best : Option (String × Nat)) :
    List (String × Nat) → Option (String × Nat)
  | [] => best
  | entry :: rest =>
    match best with
    | none => findLruAux (some entry) rest
    | some b => if entry.2 < b.2 then findLruAux (some entry) rest
                else findLruAux best rest

/-- The candidate `evictLeastUsed` computes. -/
def findLru (l : List (String × Nat)) : Option (String × Nat) :=
  findLruAux none l

/-- `MemoryCache.evictLeastUsed`.  The guard is JavaScript `if (lruKey)`:
truthiness, so eviction is skipped both when there is no entry and when the
least-recently-used key is the empty string. -/
def MemoryCache.evictLeastUsed (s : MemoryCacheState α) : MemoryCacheState α :=
  match findLru s.accessOrder with
  | some b => if b.1 = "" then s else MemoryCache.delete s b.1
  | none => s

/-- JavaScript `ttl || config.ttl`: `undefined` and `0` are both falsy. -/
def jsOrDefault (ttl : Option Nat) (dflt : Nat) : Nat :=
  match ttl with
  | some t => if t = 0 then dflt else t
  | none => dflt

/-- `MemoryCache.set`: evict first when `cache.size >= maxSize`, then write
the fresh item and refresh the access order. -/
def MemoryCache.set (cfg : CacheConfig) (s : MemoryCacheState α) (now : Nat)
    (key : String) (value : α) (ttl : Option Nat) : MemoryCacheState α :=
  let itemTtl := jsOrDefault ttl cfg.ttl
  let s1 := if cfg.maxSize ≤ s.cache.length then MemoryCache.evictLeastUsed s else s
  { s1 with
    cache := mapSet s1.cache key ⟨value, itemTtl, now, 1, now⟩,
    accessOrder := mapSet s1.accessOrder key (s1.accessCounter + 1),
    accessCounter := s1.accessCounter + 1 }

/-- `MemoryCache.clear` (statistics are not reset by `clear`). -/
def MemoryCache.clear (s : MemoryCacheState α) : MemoryCacheState α :=
  { s with cache := [], accessOrder := [], accessCounter := 0 }

/-- `MemoryCache.has`: present and not expired. -/
def MemoryCache.has (s : MemoryCacheState α) (now : Nat) (key : String) : Bool :=
  match mapGet s.cache key with
  | some item => !(isExpired now item)
  | none => false

/-- `MemoryCache.cleanupExpired`, the periodic sweep: collect the keys of
expired entries, then delete each. -/
def MemoryCache.cleanupExpired (s : MemoryCacheState α) (now : Nat) :
    MemoryCacheState α :=
  let expiredKeys := (s.cache.filter (fun p => isExpired now p.2)).map (fun p => p.1)
  expiredKeys.foldl (fun acc k => MemoryCache.delete acc k) s

/-- One externally triggered cache operation (the background sweep included). -/
inductive CacheOp (α : Type) where
  | get (now : Nat) (key : String)
  | set (now : Nat) (key : String) (value : α) (ttl : Option Nat)
  | del (key : String)
  | cleanup (now : Nat)
  | clear

/-- Apply one operation to the state. -/
def applyOp (cfg : CacheConfig) (s : MemoryCacheState α) : CacheOp α → MemoryCacheState α
  | .get now key => (MemoryCache.get s now key).2
  | .set now key v ttl => MemoryCache.set cfg s now key v ttl
  | .del key => MemoryCache.delete s key
  | .cleanup now => MemoryCache.cleanupExpired s now
  | .clear => MemoryCache.clear s

/-- Run a sequence of operations. -/
def runOps (cfg : CacheConfig) (s : MemoryCacheState α) (ops : List (CacheOp α)) :
    MemoryCacheState α :=
  ops.foldl (applyOp cfg) s

/-- Whether the operation is a `set` of key `k` (the only operation that can
(re)introduce or refresh an entry for `k`). -/
def CacheOp.setsKey : CacheOp α → String → Bool
  | .set _ key _ _, k => key == k
  | _, _ => false

/-- Whether the operation avoids the empty-string key hazard of
`evictLeastUsed` (only `set` can introduce a key). -/
def CacheOp.keyOk : CacheOp α → Bool
  | .set _ key _ _ => !(key == "")
  | _ => true

/-- Well-formedness of a `MemoryCacheState`, invariant under all operations
with non-empty `set` keys: the size bound, `cache` and `accessOrder` carrying
the same key set with no duplicate keys, access-order values bounded by the
counter and pairwise distinct, and no empty-string key. -/
structure CacheWF (cfg : CacheConfig) (s : MemoryCacheState α) : Prop where
  sizeLe : s.cache.length ≤ cfg.maxSize
  keysCO : ∀ k, (mapGet s.cache k).isSome → (mapGet s.accessOrder k).isSome
  keysOC : ∀ k, (mapGet s.accessOrder k).isSome → (mapGet s.cache k).isSome
  nodupCache : (s.cache.map Prod.fst).Nodup
  nodupOrder : (s.accessOrder.map Prod.fst).Nodup
  orderLe : ∀ p ∈ s.accessOrder, p.2 ≤ s.accessCounter
  nodupVals : (s.accessOrder.map Prod.snd).Nodup
  noEmpty : ∀ p ∈ s.accessOrder, p.1 ≠ ""

/-- Stability shape for claim C5: an entry is gone, or it existed before and
its `createdAt`/`ttl` are untouched. -/
def EntryStable (before after : Option (CacheItem α)) : Prop :=
  after = none ∨
    ∃ it, before = some it ∧ ∃ it2, after = some it2 ∧
      it2.createdAt = it.createdAt ∧ it2.ttl = it.ttl

/-- A run of `set` operations with a common value, time and default ttl
(the shape of the C4 LRU scenarios). -/
def runSets (cfg : CacheConfig) (now : Nat) (v : α) (s : MemoryCacheState α)
    (ks : List String) : MemoryCacheState α :=
  ks.foldl (fun acc k => MemoryCache.set cfg acc now k v none) s

/-- The access-order list produced by setting fresh keys in order, starting
from counter value `c`. -/
def ordersFrom (c : Nat) : List String → List (String × Nat)
  | [] => []
  | k :: ks => (k, c + 1) :: ordersFrom (c + 1) ks

/-- The item a `set` stores. -/
def freshItem (now ttl : Nat) (v : α) : CacheItem α := ⟨v, ttl, now, 1, now⟩

/-! ## Tiered cache manager: `CacheManager`

In the source the L2 (Redis) client is never initialized (`initializeL2Cache`
is commented out, `this.l2Cache` stays `undefined`), so every
`enableL2 && this.l2Cache` guard is false and only the L1 tier carries
state. -/

/-- State of a `CacheManager`: its L1 `MemoryCache`. -/
structure CacheManagerState (α : Type) where
  l1 : MemoryCacheState α
  deriving DecidableEq, Repr

/-- Freshly constructed manager. -/
def initCacheManager : CacheManagerState α := ⟨initCache⟩

/-- `CacheManager.get`: consult L1 when enabled (the L2 branch is dead). -/
def CacheManager.get (cfg : CacheConfig) (cm : CacheManagerState α) (now : Nat)
    (key : String) : Option α × CacheManagerState α :=
  if cfg.enableL1 then
    let r := MemoryCache.get cm.l1 now key
    (r.1, ⟨r.2⟩)
  else (none, cm)

/-- `CacheManager.set`: write to L1 when enabled (the L2 branch is dead). -/
def CacheManager.set (cfg : CacheConfig) (cm : CacheManagerState α) (now : Nat)
    (key : String) (value : α) (ttl : Option Nat) : CacheManagerState α :=
  if cfg.enableL1 then ⟨MemoryCache.set cfg cm.l1 now key value ttl⟩ else cm

/-- `CacheManager.delete`. -/
def CacheManager.delete (cfg : CacheConfig) (cm : CacheManagerState α)
    (key : String) : CacheManagerState α :=
  if cfg.enableL1 then ⟨MemoryCache.delete cm.l1 key⟩ else cm

/-- `CacheManager.clear`. -/
def CacheManager.clear (cfg : CacheConfig) (cm : CacheManagerState α) :
    CacheManagerState α :=
  if cfg.enableL1 then ⟨MemoryCache.clear cm.l1⟩ else cm

/-- `CacheManager.mset(items, ttl)`: one `l1Cache.set` per map entry, all with
the same `ttl` argument. -/
def CacheManager.mset (cfg : CacheConfig) (cm : CacheManagerState α) (now : Nat)
    (items : List (String × α)) (ttl : Option Nat) : CacheManagerState α :=
  if cfg.enableL1 then
    ⟨items.foldl (fun l1 it => MemoryCache.set cfg l1 now it.1 it.2 ttl) cm.l1⟩
  else cm

/-- One entry handed to `CacheManager.warmup`. -/
structure WarmupItem (α : Type) where
  key : String
  value : α
  ttl : Option Nat

/-- The `itemMap` accumulated by the `warmup` loop. -/
def warmupItemMap (items : List (WarmupItem α)) : List (String × α) :=
  items.foldl (fun m it => mapSet m it.key it.value) []

/-- JavaScript falsiness of `commonTtl`: `undefined` and `0`. -/
def jsFalsyNum (o : Option Nat) : Bool :=
  match o with
  | none => true
  | some t => t == 0

/-- The `commonTtl` accumulated by the `warmup` loop:
`if (!commonTtl) commonTtl = item.ttl` per item. -/
def warmupCommonTtl (items : List (WarmupItem α)) : Option Nat :=
  items.foldl (fun acc it => if jsFalsyNum acc then it.ttl else acc) none

/-- `CacheManager.warmup(items)`: build `itemMap` and `commonTtl` in one pass
over the items (the two accumulations are independent, so they are split into
two folds here), then `mset(itemMap, commonTtl)`. -/
def CacheManager.warmup (cfg : CacheConfig) (cm : CacheManagerState α) (now : Nat)
    (items : List (WarmupItem α)) : CacheManagerState α :=
  CacheManager.mset cfg cm now (warmupItemMap items) (warmupCommonTtl items)

/-- The shared TTL as claim C9 words it: the `ttl` of the first entry in list
order whose `ttl` is set (`none` when no entry sets one). -/
def firstProvidedTtl (items : List (WarmupItem α)) : Option Nat :=
  match items.find? (fun it => it.ttl.isSome) with
  | some it => it.ttl
  | none => none

/-- The TTL selection rule the code actually implements: the `ttl` of the
first entry whose `ttl` is truthy (set and nonzero). -/
def firstTruthyTtl (items : List (WarmupItem α)) : Option Nat :=
  match items.find? (fun it => !(jsFalsyNum it.ttl)) with
  | some it => it.ttl
  | none => none

/-- `BasePlatformAdapter.clearCache(pattern?)`: JavaScript `if (pattern)` —
with a truthy (non-empty) pattern only a log line is emitted and the cache is
left untouched (pattern-matched clearing is a `TODO`); with no pattern or an
empty-string pattern, `cacheManager.clear()` runs. -/
def clearCache (cfg : CacheConfig) (cm : CacheManagerState α)
    (pattern : Option String) : CacheManagerState α :=
  match pattern with
  | some p => if p = "" then CacheManager.clear cfg cm else cm
  | none => CacheManager.clear cfg cm

/-! ## Bounded concurrency gate: `Semaphore`

The class appears verbatim twice in the source (HttpClient.ts and
BasePlatformAdapter.ts); both copies are this model.  `outstanding` is not a
field of the class: it is the spec-level observable counting permits that have
been acquired (an `acquire()` resolved) and not yet released.  A waiter popped
by `release()` is resolved immediately, so it counts as holding from that
step on. -/

/-- Semaphore state plus the outstanding-permit observable. -/
structure SemState where
  permits : Int
  waitQueue : List Nat
  outstanding : Nat
  deriving DecidableEq, Repr

/-- `new Semaphore(n)`. -/
def semInit (n : Nat) : SemState := ⟨(n : Int), [], 0⟩

/-- `acquire()` by caller `id`: take a permit when one is free, otherwise
join the tail of the wait queue. -/
def semAcquire (s : SemState) (id : Nat) : SemState :=
  if 0 < s.permits then
    { s with permits := s.permits - 1, outstanding := s.outstanding + 1 }
  else
    { s with waitQueue := s.waitQueue ++ [id] }

/-- `release()` by a current holder: `permits++`; then, if someone waits,
shift the queue head and `permits--` as that waiter's `acquire` resolves. -/
def semRelease (s : SemState) : SemState :=
  let s1 := { s with permits := s.permits + 1, outstanding := s.outstanding - 1 }
  match s1.waitQueue with
  | [] => s1
  | _ :: rest =>
    { s1 with permits := s1.permits - 1, waitQueue := rest,
              outstanding := s1.outstanding + 1 }

/-- An externally observable semaphore event. -/
inductive SemEvent where
  | acquire (id : Nat)
  | release

/-- Apply one event. -/
def semStep (s : SemState) : SemEvent → SemState
  | .acquire id => semAcquire s id
  | .release => semRelease s

/-- Run a sequence of events. -/
def runSem (s : SemState) (es : List SemEvent) : SemState :=
  es.foldl semStep s

/-- A sequence is valid when every `release` is performed by a current holder
(callers only release after their `acquire` resolved). -/
def semValid (s : SemState) : List SemEvent → Prop
  | [] => True
  | .acquire id :: es => semValid (semAcquire s id) es
  | .release :: es => 1 ≤ s.outstanding ∧ semValid (semRelease s) es

/-! ## Batch operations

`BasePlatformAdapter.batchSearch` / `batchGetSongs` and
`HttpClient.batchRequest` share one structure: map each input to a task that
awaits the semaphore, runs the operation, writes `results[index]` and bumps
`successCount` or `errorCount` in its `catch`/success arm, then releases.
The semaphore bounds how many tasks run at once but not which slot a task
writes, so completion order is an arbitrary permutation of the indices. -/

/-- The mutable state a batch call accumulates (`BatchResponse` fields;
`results` slots start as JavaScript holes, modelled as `none`). -/
structure BatchState (ε α : Type) where
  results : List (Option (Except ε α))
  successCount : Nat
  errorCount : Nat
  deriving Repr

/-- Task for input index `i` completing: record outcome at slot `i`. -/
def batchTask (inputs : List ι) (outcome : ι → Except ε α)
    (st : BatchState ε α) (i : Nat) : BatchState ε α :=
  match inputs[i]? with
  | none => st
  | some x =>
    match outcome x with
    | .ok v => { st with results := st.results.set i (some (.ok v)),
                         successCount := st.successCount + 1 }
    | .error e => { st with results := st.results.set i (some (.error e)),
                            errorCount := st.errorCount + 1 }

/-- A whole batch call: all tasks complete, in completion order `order`. -/
def batchRun (inputs : List ι) (outcome : ι → Except ε α) (order : List Nat) :
    BatchState ε α :=
  order.foldl (batchTask inputs outcome) ⟨List.replicate inputs.length none, 0, 0⟩

/-! ## Cross-provider fan-out: `AdapterManager.searchAll` -/

/-- The `Platform` enum. -/
inductive Platform where
  | netease
  | qq
  | kugou
  | kuwo
  deriving DecidableEq, Repr

/-- `AdapterManager.searchAll(query, platforms?)` over the chosen target list:
for each target platform with an available adapter, its entry in the result
map is that adapter's settled `search` outcome (`outcome p`: the success value
or the error caught and stored by the `catch` arm); targets without an
adapter contribute nothing.  `Promise.allSettled` waits for every entry, and
the map is keyed by platform, so insertion order does not affect lookups and
is taken as target order. -/
def searchAll (available : Platform → Bool) (outcome : Platform → Except ε σ)
    (targets : List Platform) : List (Platform × Except ε σ) :=
  targets.foldl (fun results p =>
    if available p then mapSet results p (outcome p) else results) []


/-! ## Lemma library and claim theorems -/

section MapLemmas

variable [BEq κ] [LawfulBEq κ]

theorem mapGet_eq_none_iff {m : List (κ × β)} {k : κ} :
    mapGet m k = none ↔ ∀ p ∈ m, p.1 ≠ k := by
  induction m with
  | nil => simp [mapGet]
  | cons p rest ih =>
    by_cases hp : p.1 = k
    · simp [mapGet, hp]
    · simp [mapGet, hp, ih]

theorem mapGet_eq_some_mem {m : List (κ × β)} {k : κ} {v : β}
    (h : mapGet m k = some v) : (k, v) ∈ m := by
  induction m with
  | nil => simp [mapGet] at h
  | cons p rest ih =>
    by_cases hp : p.1 = k
    · simp only [mapGet, hp, beq_self_eq_true, if_true, Option.some_inj] at h
      have hpv : (k, v) = p := by
        cases p with
        | mk a b => simp_all
      rw [hpv]
      exact List.mem_cons_self _ _
    · simp only [mapGet, hp, beq_iff_eq, if_false] at h
      exact List.mem_cons_of_mem _ (ih h)

theorem mapGet_mapSet {m : List (κ × β)} {k k2 : κ} {v : β} :
    mapGet (mapSet m k v) k2 = if k == k2 then some v else mapGet m k2 := by
  induction m with
  | nil => simp [mapGet, mapSet]
  | cons p rest ih =>
    by_cases hp : p.1 = k
    · by_cases hk : k = k2
      · simp [mapSet, mapGet, hp, hk]
      · simp [mapSet, mapGet, hp, hk, fun h => hk (hp ▸ h)]
    · have hb : (p.1 == k) = false := beq_eq_false_iff_ne.mpr hp
      by_cases hq : p.1 = k2
      · have hq2 : (p.1 == k2) = true := beq_iff_eq.mpr hq
        have hk2 : (k == k2) = false :=
          beq_eq_false_iff_ne.mpr (fun h2 => hp (h2 ▸ hq))
        simp only [mapSet, hb, Bool.false_eq_true, if_false, mapGet, hq2, if_true, hk2]
      · have hq2 : (p.1 == k2) = false := beq_eq_false_iff_ne.mpr hq
        simp [mapSet, mapGet, hb, hq2, ih]

theorem mapGet_mapSet_self {m : List (κ × β)} {k : κ} {v : β} :
    mapGet (mapSet m k v) k = some v := by
  simp [mapGet_mapSet]

theorem mapGet_mapSet_ne {m : List (κ × β)} {k k2 : κ} {v : β} (h : k ≠ k2) :
    mapGet (mapSet m k v) k2 = mapGet m k2 := by
  simp [mapGet_mapSet, h]

theorem mapGet_mapDelete_self {m : List (κ × β)} {k : κ} :
    mapGet (mapDelete m k) k = none := by
  rw [mapGet_eq_none_iff]
  intro p hp he
  simp only [mapDelete, List.mem_filter, Bool.not_eq_true'] at hp
  rw [he] at hp
  simp at hp

theorem mapGet_mapDelete_ne {m : List (κ × β)} {k k2 : κ} (h : k2 ≠ k) :
    mapGet (mapDelete m k) k2 = mapGet m k2 := by
  induction m with
  | nil => simp [mapDelete, mapGet]
  | cons p rest ih =>
    by_cases hp : p.1 = k
    · have hb : (p.1 == k) = true := beq_iff_eq.mpr hp
      have h4 : (p.1 == k2) = false :=
        beq_eq_false_iff_ne.mpr (fun he => h ((he ▸ hp : k2 = k)))
      simp only [mapDelete, List.filter_cons, hb, Bool.not_true, if_false, mapGet, h4]
      simpa [mapDelete] using ih
    · have hb : (p.1 == k) = false := beq_eq_false_iff_ne.mpr hp
      simp only [mapDelete, List.filter_cons, hb, Bool.not_false, if_true, mapGet]
      by_cases hq : p.1 = k2
      · simp [hq]
      · have hq2 : (p.1 == k2) = false := beq_eq_false_iff_ne.mpr hq
        simp only [hq2, if_false]
        simpa [mapDelete] using ih

theorem length_mapSet_le {m : List (κ × β)} {k : κ} {v : β} :
    (mapSet m k v).length ≤ m.length + 1 := by
  induction m with
  | nil => simp [mapSet]
  | cons p rest ih =>
    by_cases hp : p.1 = k
    · simp [mapSet, hp]
    · simp only [mapSet, hp, beq_iff_eq, if_false, List.length_cons]
      omega

omit [LawfulBEq κ] in
theorem length_mapDelete_le {m : List (κ × β)} {k : κ} :
    (mapDelete m k).length ≤ m.length :=
  List.length_filter_le _ m

theorem length_mapDelete_lt {m : List (κ × β)} {k : κ} {v : β}
    (h : mapGet m k = some v) : (mapDelete m k).length < m.length := by
  have hmem : (k, v) ∈ m := mapGet_eq_some_mem h
  refine List.length_filter_lt_length_iff_exists.mpr ⟨(k, v), hmem, ?_⟩
  simp

end MapLemmas

theorem shouldRetry_lt {retries retryCount : Nat} {code : Option String}
    {status : Option Nat} (h : shouldRetry retries code status retryCount = true) :
    retryCount < retries := by
  by_contra hc
  simp [shouldRetry, Nat.le_of_not_lt hc] at h


/-! ## Claims C1 and C2 -/

/-- C1: the claim states that `errorRate` always lies in `[0,1]` for both the
Transport counters and the Orchestrator aggregate metrics, and that
`requestCount` is monotone.  `requestCount` is indeed monotone (last
conjunct), but both error rates escape `[0,1]`: two failed
`AdapterManager.updateMetrics` steps from the initial metrics yield a stored
`errorRate` of `3/2`, and one successful plus two failed completed `HttpClient`
attempts yield `getMetrics().errorRate = 2`, because the error interceptor
increments `errorCount` without incrementing `requestCount`. -/
theorem c1_errorRate_escapes_unit_interval :
    (updateMetrics (updateMetrics initPerfMetrics 5 false) 5 false).errorRate = 3 / 2 ∧
    1 < (updateMetrics (updateMetrics initPerfMetrics 5 false) 5 false).errorRate ∧
    (recordAttempt (recordAttempt (recordAttempt initHttpMetrics (.success 10))
        (.failure (some "ECONNRESET") none 10))
        (.failure (some "ECONNRESET") none 10)).errorRate = 2 ∧
    (∀ s o, s.requestCount ≤ (recordAttempt s o).requestCount) ∧
    (∀ m rt success, m.requestCount ≤ (updateMetrics m rt success).requestCount) := by
  have h1 : updateMetrics initPerfMetrics 5 false =
      { requestCount := 1, averageResponseTime := 0, errorRate := 1 } := by
    simp [updateMetrics, initPerfMetrics]
  have h2 : (updateMetrics (updateMetrics initPerfMetrics 5 false) 5 false).errorRate = 3 / 2 := by
    rw [h1]
    norm_num [updateMetrics]
  refine ⟨h2, ?_, ?_, ?_, ?_⟩
  · rw [h2]; norm_num
  · norm_num [recordAttempt, initHttpMetrics, HttpMetricsState.errorRate]
  · intro s o
    cases o <;> simp [recordAttempt]
  · intro m rt success
    by_cases h : success = true <;> simp [updateMetrics, h]

/-- C2: the claim states that `requestCount`, `totalResponseTime` and (on
terminal failure) `errorCount` are updated exactly once per logical call, so a
call failing twice and succeeding on the third attempt should increment
`requestCount` by 1 and `errorCount` by 0.  In the code the axios interceptors
fire once per attempt: that call performs 3 attempts and leaves
`errorCount = 2` (once per failed attempt), with `totalResponseTime` the sum
of per-attempt times. -/
theorem c2_metrics_updated_once_per_attempt :
    (requestWithRetry 3 envFailTwice initHttpMetrics 0).1 =
      { requestCount := 1, errorCount := 2, totalResponseTime := 17 } ∧
    (requestWithRetry 3 envFailTwice initHttpMetrics 0).2.1 = 3 ∧
    (requestWithRetry 3 envFailTwice initHttpMetrics 0).2.2 = .ok 7 := by
  simp [requestWithRetry.eq_def, envFailTwice, shouldRetry, recordAttempt, initHttpMetrics]

/-- C3: an attempt is retried iff fewer than `maxRetries` retries were made
and the failure is transient / 5xx / 429 (first conjunct: `shouldRetry`
equals the spec predicate); with `maxRetries = 3` against an endpoint that
always fails with status 500, exactly 4 attempts are made and the call fails
with an error (second conjunct); a 404 response is never retried: one attempt
and an immediate, non-retryable error, for any `maxRetries` (third
conjunct). -/
theorem c3_retry_predicate_and_bounds :
    (∀ retries code status rc,
        shouldRetry retries code status rc = true ↔ retrySpec retries code status rc) ∧
    (∀ (env : Nat → AttemptOutcome) (rt : Nat → Nat) (s : HttpMetricsState),
        (∀ i, env i = .failure none (some 500) (rt i)) →
        (requestWithRetry 3 env s 0).2.1 = 4 ∧
        (requestWithRetry 3 env s 0).2.2 = .apiError none (some 500) true) ∧
    (∀ (retries : Nat) (env : Nat → AttemptOutcome) (rt : Nat) (s : HttpMetricsState),
        env 0 = .failure none (some 404) rt →
        (requestWithRetry retries env s 0).2.1 = 1 ∧
        (requestWithRetry retries env s 0).2.2 = .apiError none (some 404) false) := by
  refine ⟨?_, ?_, ?_⟩
  · intro retries code status rc
    constructor
    · intro h
      have hlt := shouldRetry_lt h
      refine ⟨hlt, ?_⟩
      have hnle : ¬ retries ≤ rc := Nat.not_le.mpr hlt
      simp only [shouldRetry, hnle, if_false] at h
      by_cases hc : (code == some "ECONNRESET" || code == some "ETIMEDOUT" ||
          code == some "ECONNREFUSED" || code == some "ENOTFOUND") = true
      · simp only [Bool.or_eq_true, beq_iff_eq] at hc
        tauto
      · rw [Bool.not_eq_true] at hc
        simp only [hc, Bool.false_eq_true, if_false] at h
        cases status with
        | none => simp at h
        | some st =>
          simp only [Bool.or_eq_true, decide_eq_true_eq, beq_iff_eq] at h
          exact Or.inr (Or.inr (Or.inr (Or.inr ⟨st, rfl, h⟩)))
    · rintro ⟨hlt, hrest⟩
      have hnle : ¬ retries ≤ rc := Nat.not_le.mpr hlt
      simp only [shouldRetry, hnle, if_false]
      rcases hrest with h | h | h | h | ⟨st, rfl, hst⟩
      · simp [h]
      · simp [h]
      · simp [h]
      · simp [h]
      · rcases hst with hst | hst <;> simp [hst]
  · intro env rt s henv
    simp [requestWithRetry.eq_def, henv 0, henv 1, henv 2, henv 3,
      shouldRetry, recordAttempt]
  · intro retries env rt s henv
    rw [requestWithRetry.eq_def, henv]
    simp [shouldRetry]

/-- Witness for C3 at concrete inputs: always-500 endpoint with
`maxRetries = 3` makes 4 attempts; a 404 with `maxRetries = 9` makes 1. -/
theorem c3_retry_predicate_and_bounds_witness :
    (requestWithRetry 3 (fun _ => .failure none (some 500) 3) initHttpMetrics 0).2.1 = 4 ∧
    (requestWithRetry 9 (fun _ => .failure none (some 404) 2) initHttpMetrics 0).2.1 = 1 ∧
    (shouldRetry 3 none (some 500) 0 = true ↔ retrySpec 3 none (some 500) 0) :=
  ⟨(c3_retry_predicate_and_bounds.2.1 (fun _ => .failure none (some 500) 3) (fun _ => 3)
      initHttpMetrics (fun _ => rfl)).1,
   (c3_retry_predicate_and_bounds.2.2 9 (fun _ => .failure none (some 404) 2) 2
      initHttpMetrics rfl).1,
   c3_retry_predicate_and_bounds.1 3 none (some 500) 0⟩

/-! ### Further map lemmas -/

section MapLemmas2

variable [BEq κ] [LawfulBEq κ]

theorem mem_mapSet {m : List (κ × β)} {k : κ} {v : β} {q : κ × β}
    (h : q ∈ mapSet m k v) : q = (k, v) ∨ q ∈ m := by
  induction m with
  | nil => simp [mapSet] at h; simp [h]
  | cons p rest ih =>
    by_cases hp : p.1 = k
    · simp only [mapSet, hp, beq_self_eq_true, if_true, List.mem_cons] at h
      rcases h with h | h
      · exact Or.inl h
      · exact Or.inr (List.mem_cons_of_mem _ h)
    · have hb : (p.1 == k) = false := beq_eq_false_iff_ne.mpr hp
      simp only [mapSet, hb, Bool.false_eq_true, if_false, List.mem_cons] at h
      rcases h with h | h
      · exact Or.inr (by simp [h])
      · rcases ih h with h2 | h2
        · exact Or.inl h2
        · exact Or.inr (List.mem_cons_of_mem _ h2)

theorem mapGet_isSome_of_mem {m : List (κ × β)} {p : κ × β} (h : p ∈ m) :
    (mapGet m p.1).isSome := by
  induction m with
  | nil => simp at h
  | cons q rest ih =>
    rcases List.mem_cons.mp h with h | h
    · simp [mapGet, h]
    · by_cases hq : q.1 = p.1
      · simp [mapGet, hq]
      · have hb : (q.1 == p.1) = false := beq_eq_false_iff_ne.mpr hq
        simp only [mapGet, hb, Bool.false_eq_true, if_false]
        exact ih h

theorem mapGet_of_mem_nodup {m : List (κ × β)} {p : κ × β}
    (hnd : (m.map Prod.fst).Nodup) (h : p ∈ m) : mapGet m p.1 = some p.2 := by
  induction m with
  | nil => simp at h
  | cons q rest ih =>
    rcases List.mem_cons.mp h with h | h
    · subst h
      simp [mapGet]
    · have hq : q.1 ≠ p.1 := by
        intro he
        have : p.1 ∈ rest.map Prod.fst := List.mem_map_of_mem _ h
        rw [List.map_cons, List.nodup_cons, he] at hnd
        exact hnd.1 this
      have hb : (q.1 == p.1) = false := beq_eq_false_iff_ne.mpr hq
      simp only [mapGet, hb, Bool.false_eq_true, if_false]
      exact ih (by rw [List.map_cons, List.nodup_cons] at hnd; exact hnd.2) h

theorem mapSet_eq_append_of_none {m : List (κ × β)} {k : κ} {v : β}
    (h : mapGet m k = none) : mapSet m k v = m ++ [(k, v)] := by
  induction m with
  | nil => simp [mapSet]
  | cons p rest ih =>
    by_cases hp : p.1 = k
    · simp [mapGet, hp] at h
    · have hb : (p.1 == k) = false := beq_eq_false_iff_ne.mpr hp
      simp only [mapGet, hb, Bool.false_eq_true, if_false] at h
      simp [mapSet, hb, ih h]

theorem mapDelete_eq_self_of_none {m : List (κ × β)} {k : κ}
    (h : mapGet m k = none) : mapDelete m k = m := by
  rw [mapGet_eq_none_iff] at h
  exact List.filter_eq_self.mpr (fun p hp => by simp [h p hp])

theorem length_mapSet_present {m : List (κ × β)} {k : κ} {v v0 : β}
    (h : mapGet m k = some v0) : (mapSet m k v).length = m.length := by
  induction m with
  | nil => simp [mapGet] at h
  | cons p rest ih =>
    by_cases hp : p.1 = k
    · simp [mapSet, hp]
    · have hb : (p.1 == k) = false := beq_eq_false_iff_ne.mpr hp
      simp only [mapGet, hb, Bool.false_eq_true, if_false] at h
      simp [mapSet, hb, ih h]

theorem length_mapSet_absent {m : List (κ × β)} {k : κ} {v : β}
    (h : mapGet m k = none) : (mapSet m k v).length = m.length + 1 := by
  rw [mapSet_eq_append_of_none h]
  simp

theorem length_mapDelete_nodup {m : List (κ × β)} {k : κ} {v : β}
    (hnd : (m.map Prod.fst).Nodup) (h : mapGet m k = some v) :
    (mapDelete m k).length + 1 = m.length := by
  induction m with
  | nil => simp [mapGet] at h
  | cons p rest ih =>
    rw [List.map_cons, List.nodup_cons] at hnd
    by_cases hp : p.1 = k
    · have hb : (p.1 == k) = true := beq_iff_eq.mpr hp
      have hrest : mapGet rest k = none := by
        apply mapGet_eq_none_iff.mpr
        intro q hq he
        apply hnd.1
        have hmem : q.1 ∈ List.map Prod.fst rest := List.mem_map_of_mem _ hq
        rwa [he, ← hp] at hmem
      have hdel : mapDelete (p :: rest) k = rest := by
        simp only [mapDelete, List.filter_cons, hb, Bool.not_true, Bool.false_eq_true,
          if_false]
        exact List.filter_eq_self.mpr (fun q hq => by
          have hne := mapGet_eq_none_iff.mp hrest q hq
          simp [hne])
      rw [hdel]
      simp
    · have hb : (p.1 == k) = false := beq_eq_false_iff_ne.mpr hp
      simp only [mapGet, hb, Bool.false_eq_true, if_false] at h
      simp only [mapDelete, List.filter_cons, hb, Bool.not_false, if_true,
        List.length_cons]
      rw [← ih hnd.2 h]
      rfl

omit [LawfulBEq κ] in
theorem sublist_mapDelete {m : List (κ × β)} {k : κ} :
    (mapDelete m k).Sublist m :=
  List.filter_sublist m

omit [LawfulBEq κ] in
theorem nodup_fst_mapDelete {m : List (κ × β)} {k : κ}
    (hnd : (m.map Prod.fst).Nodup) : ((mapDelete m k).map Prod.fst).Nodup :=
  (sublist_mapDelete.map Prod.fst).nodup hnd

omit [LawfulBEq κ] in
theorem nodup_snd_mapDelete {m : List (κ × β)} {k : κ}
    (hnd : (m.map Prod.snd).Nodup) : ((mapDelete m k).map Prod.snd).Nodup :=
  (sublist_mapDelete.map Prod.snd).nodup hnd

omit [LawfulBEq κ] in
theorem mem_mapDelete {m : List (κ × β)} {k : κ} {q : κ × β}
    (h : q ∈ mapDelete m k) : q ∈ m :=
  (List.mem_filter.mp h).1

theorem nodup_fst_mapSet {m : List (κ × β)} {k : κ} {v : β}
    (hnd : (m.map Prod.fst).Nodup) : ((mapSet m k v).map Prod.fst).Nodup := by
  induction m with
  | nil => simp [mapSet]
  | cons p rest ih =>
    rw [List.map_cons, List.nodup_cons] at hnd
    by_cases hp : p.1 = k
    · have hb : (p.1 == k) = true := beq_iff_eq.mpr hp
      simp only [mapSet, hb, if_true, List.map_cons, List.nodup_cons]
      exact ⟨hp ▸ hnd.1, hnd.2⟩
    · have hb : (p.1 == k) = false := beq_eq_false_iff_ne.mpr hp
      simp only [mapSet, hb, Bool.false_eq_true, if_false, List.map_cons,
        List.nodup_cons]
      refine ⟨?_, ih hnd.2⟩
      intro hmem
      rcases List.mem_map.mp hmem with ⟨q, hq, hqe⟩
      rcases mem_mapSet hq with h2 | h2
      · exact hp (by rw [h2] at hqe; exact hqe.symm ▸ rfl)
      · exact hnd.1 (hqe ▸ List.mem_map_of_mem _ h2)

theorem nodup_snd_mapSet {m : List (κ × Nat)} {k : κ} {c : Nat}
    (hnd : (m.map Prod.snd).Nodup) (hlt : ∀ p ∈ m, p.2 < c) :
    ((mapSet m k c).map Prod.snd).Nodup := by
  induction m with
  | nil => simp [mapSet]
  | cons p rest ih =>
    rw [List.map_cons, List.nodup_cons] at hnd
    by_cases hp : p.1 = k
    · have hb : (p.1 == k) = true := beq_iff_eq.mpr hp
      simp only [mapSet, hb, if_true, List.map_cons, List.nodup_cons]
      refine ⟨?_, hnd.2⟩
      intro hmem
      rcases List.mem_map.mp hmem with ⟨q, hq, hqe⟩
      have := hlt q (List.mem_cons_of_mem _ hq)
      omega
    · have hb : (p.1 == k) = false := beq_eq_false_iff_ne.mpr hp
      simp only [mapSet, hb, Bool.false_eq_true, if_false, List.map_cons,
        List.nodup_cons]
      refine ⟨?_, ih hnd.2 (fun q hq => hlt q (List.mem_cons_of_mem _ hq))⟩
      intro hmem
      rcases List.mem_map.mp hmem with ⟨q, hq, hqe⟩
      rcases mem_mapSet hq with h2 | h2
      · have := hlt p (List.mem_cons_self _ _)
        rw [h2] at hqe
        simp at hqe
        omega
      · exact hnd.1 (hqe ▸ List.mem_map_of_mem _ h2)

end MapLemmas2

/-! ### `findLru` lemmas -/

theorem findLruAux_isSome {l : List (String × Nat)} {b : String × Nat} :
    (findLruAux (some b) l).isSome := by
  induction l generalizing b with
  | nil => simp [findLruAux]
  | cons entry rest ih =>
    simp only [findLruAux]
    split
    · exact ih
    · exact ih

theorem findLru_isSome {l : List (String × Nat)} (h : l ≠ []) :
    (findLru l).isSome := by
  cases l with
  | nil => exact absurd rfl h
  | cons entry rest => simpa [findLru, findLruAux] using findLruAux_isSome

theorem findLruAux_spec {l : List (String × Nat)} {best b : String × Nat}
    (h : findLruAux (some best) l = some b) :
    (b ∈ l ∨ b = best) ∧ (∀ p ∈ l, b.2 ≤ p.2) ∧ b.2 ≤ best.2 := by
  induction l generalizing best with
  | nil =>
    simp only [findLruAux, Option.some_inj] at h
    exact ⟨Or.inr h.symm, by simp, by rw [h]⟩
  | cons entry rest ih =>
    simp only [findLruAux] at h
    by_cases hlt : entry.2 < best.2
    · rw [if_pos hlt] at h
      rcases ih h with ⟨hmem, hmin, hle⟩
      refine ⟨?_, ?_, by omega⟩
      · rcases hmem with hm | hm
        · exact Or.inl (List.mem_cons_of_mem _ hm)
        · exact Or.inl (hm ▸ List.mem_cons_self _ _)
      · intro p hp
        rcases List.mem_cons.mp hp with hp | hp
        · rw [hp]; omega
        · exact hmin p hp
    · rw [if_neg hlt] at h
      rcases ih h with ⟨hmem, hmin, hle⟩
      refine ⟨?_, ?_, hle⟩
      · rcases hmem with hm | hm
        · exact Or.inl (List.mem_cons_of_mem _ hm)
        · exact Or.inr hm
      · intro p hp
        rcases List.mem_cons.mp hp with hp | hp
        · rw [hp]; omega
        · exact hmin p hp

theorem findLru_spec {l : List (String × Nat)} {b : String × Nat}
    (h : findLru l = some b) : b ∈ l ∧ ∀ p ∈ l, b.2 ≤ p.2 := by
  cases l with
  | nil => simp [findLru, findLruAux] at h
  | cons entry rest =>
    simp only [findLru, findLruAux] at h
    rcases findLruAux_spec h with ⟨hmem, hmin, hle⟩
    constructor
    · rcases hmem with hm | hm
      · exact List.mem_cons_of_mem _ hm
      · exact hm ▸ List.mem_cons_self _ _
    · intro p hp
      rcases List.mem_cons.mp hp with hp | hp
      · rw [hp]; exact hle
      · exact hmin p hp

theorem findLruAux_of_no_lt {l : List (String × Nat)} {b : String × Nat}
    (h : ∀ p ∈ l, ¬ p.2 < b.2) : findLruAux (some b) l = some b := by
  induction l with
  | nil => rfl
  | cons entry rest ih =>
    simp only [findLruAux, if_neg (h entry (List.mem_cons_self _ _))]
    exact ih (fun p hp => h p (List.mem_cons_of_mem _ hp))

theorem findLru_cons_of_min {k0 : String} {o0 : Nat} {rest : List (String × Nat)}
    (h : ∀ p ∈ rest, ¬ p.2 < o0) :
    findLru ((k0, o0) :: rest) = some (k0, o0) := by
  simp only [findLru, findLruAux]
  exact findLruAux_of_no_lt h

/-! ### Unfolding lemmas for `get` and `evictLeastUsed` -/

theorem get_miss {s : MemoryCacheState α} {key : String} {now : Nat}
    (h : mapGet s.cache key = none) :
    MemoryCache.get s now key = (none, { s with misses := s.misses + 1 }) := by
  unfold MemoryCache.get
  rw [h]

theorem get_expired {s : MemoryCacheState α} {key : String} {now : Nat}
    {item : CacheItem α} (h : mapGet s.cache key = some item)
    (hexp : isExpired now item = true) :
    MemoryCache.get s now key =
      (none, { MemoryCache.delete s key with
               misses := (MemoryCache.delete s key).misses + 1 }) := by
  unfold MemoryCache.get
  rw [h]
  simp [hexp]

theorem get_hit {s : MemoryCacheState α} {key : String} {now : Nat}
    {item : CacheItem α} (h : mapGet s.cache key = some item)
    (hexp : isExpired now item = false) :
    MemoryCache.get s now key =
      (some item.value,
       { s with cache := mapSet s.cache key
                  { item with accessCount := item.accessCount + 1,
                              lastAccessed := now },
                accessOrder := mapSet s.accessOrder key (s.accessCounter + 1),
                accessCounter := s.accessCounter + 1,
                hits := s.hits + 1 }) := by
  unfold MemoryCache.get
  rw [h]
  simp [hexp]

theorem evict_eq_delete {s : MemoryCacheState α} {b : String × Nat}
    (hb : findLru s.accessOrder = some b) (hne : b.1 ≠ "") :
    MemoryCache.evictLeastUsed s = MemoryCache.delete s b.1 := by
  unfold MemoryCache.evictLeastUsed
  rw [hb]
  simp [hne]

/-! ### Cache invariant preservation -/

theorem wf_init (cfg : CacheConfig) : CacheWF cfg (initCache : MemoryCacheState α) := by
  refine ⟨?_, ?_, ?_, ?_, ?_, ?_, ?_, ?_⟩ <;>
    simp [initCache, mapGet]

theorem wf_delete {cfg : CacheConfig} {s : MemoryCacheState α} (h : CacheWF cfg s)
    (key : String) : CacheWF cfg (MemoryCache.delete s key) := by
  refine ⟨?_, ?_, ?_, ?_, ?_, ?_, ?_, ?_⟩
  · exact le_trans length_mapDelete_le h.sizeLe
  · intro k hk
    by_cases hke : k = key
    · rw [MemoryCache.delete] at hk
      simp only [hke, mapGet_mapDelete_self] at hk
      simp at hk
    · simp only [MemoryCache.delete] at hk ⊢
      rw [mapGet_mapDelete_ne hke] at hk ⊢
      exact h.keysCO k hk
  · intro k hk
    by_cases hke : k = key
    · rw [MemoryCache.delete] at hk
      simp only [hke, mapGet_mapDelete_self] at hk
      simp at hk
    · simp only [MemoryCache.delete] at hk ⊢
      rw [mapGet_mapDelete_ne hke] at hk ⊢
      exact h.keysOC k hk
  · exact nodup_fst_mapDelete h.nodupCache
  · exact nodup_fst_mapDelete h.nodupOrder
  · intro p hp
    exact h.orderLe p (mem_mapDelete hp)
  · exact nodup_snd_mapDelete h.nodupVals
  · intro p hp
    exact h.noEmpty p (mem_mapDelete hp)

theorem wf_clear {cfg : CacheConfig} {s : MemoryCacheState α} :
    CacheWF cfg (MemoryCache.clear s) := by
  refine ⟨?_, ?_, ?_, ?_, ?_, ?_, ?_, ?_⟩ <;>
    simp [MemoryCache.clear, mapGet]

theorem wf_evict {cfg : CacheConfig} {s : MemoryCacheState α} (h : CacheWF cfg s) :
    CacheWF cfg (MemoryCache.evictLeastUsed s) := by
  unfold MemoryCache.evictLeastUsed
  split
  · split
    · exact h
    · exact wf_delete h _
  · exact h

theorem evict_shrinks {cfg : CacheConfig} {s : MemoryCacheState α} (h : CacheWF cfg s)
    (hne : s.cache ≠ []) :
    (MemoryCache.evictLeastUsed s).cache.length + 1 = s.cache.length := by
  obtain ⟨p, hp⟩ : ∃ p, p ∈ s.cache := by
    cases hcl : s.cache with
    | nil => exact absurd hcl hne
    | cons q rest => exact ⟨q, hcl ▸ List.mem_cons_self q rest⟩
  have hcs : (mapGet s.cache p.1).isSome := mapGet_isSome_of_mem hp
  have hos : (mapGet s.accessOrder p.1).isSome := h.keysCO p.1 hcs
  have hone : s.accessOrder ≠ [] := by
    intro he
    rw [he] at hos
    simp [mapGet] at hos
  obtain ⟨b, hb⟩ := Option.isSome_iff_exists.mp (findLru_isSome hone)
  obtain ⟨hbmem, _⟩ := findLru_spec hb
  have hbne : b.1 ≠ "" := h.noEmpty b hbmem
  have hbs : (mapGet s.accessOrder b.1).isSome := mapGet_isSome_of_mem hbmem
  obtain ⟨it, hit⟩ := Option.isSome_iff_exists.mp (h.keysOC b.1 hbs)
  rw [evict_eq_delete hb hbne]
  simp only [MemoryCache.delete]
  exact length_mapDelete_nodup h.nodupCache hit

theorem wf_mapSet_refresh {cfg : CacheConfig} {s : MemoryCacheState α}
    (h : CacheWF cfg s) {key : String} (hkey : key ≠ "") (item : CacheItem α)
    (hroom : (mapSet s.cache key item).length ≤ cfg.maxSize)
    (hits misses : Nat) :
    CacheWF cfg ⟨mapSet s.cache key item,
      mapSet s.accessOrder key (s.accessCounter + 1), hits, misses,
      s.accessCounter + 1⟩ := by
  refine ⟨hroom, ?_, ?_, ?_, ?_, ?_, ?_, ?_⟩
  · intro k hk
    simp only
    by_cases hke : key = k
    · rw [← hke, mapGet_mapSet_self]
      simp
    · rw [mapGet_mapSet_ne hke]
      simp only [mapGet_mapSet_ne hke] at hk
      exact h.keysCO k hk
  · intro k hk
    simp only
    by_cases hke : key = k
    · rw [← hke, mapGet_mapSet_self]
      simp
    · rw [mapGet_mapSet_ne hke]
      simp only [mapGet_mapSet_ne hke] at hk
      exact h.keysOC k hk
  · exact nodup_fst_mapSet h.nodupCache
  · exact nodup_fst_mapSet h.nodupOrder
  · intro p hp
    rcases mem_mapSet hp with hp2 | hp2
    · rw [hp2]
    · exact le_trans (h.orderLe p hp2) (Nat.le_succ _)
  · exact nodup_snd_mapSet h.nodupVals
      (fun p hp => Nat.lt_succ_of_le (h.orderLe p hp))
  · intro p hp
    rcases mem_mapSet hp with hp2 | hp2
    · rw [hp2]
      exact hkey
    · exact h.noEmpty p hp2

theorem wf_set {cfg : CacheConfig} {s : MemoryCacheState α} (h : CacheWF cfg s)
    (hmax : 1 ≤ cfg.maxSize) {key : String} (hkey : key ≠ "") (now : Nat) (v : α)
    (ttl : Option Nat) : CacheWF cfg (MemoryCache.set cfg s now key v ttl) := by
  unfold MemoryCache.set
  by_cases hfull : cfg.maxSize ≤ s.cache.length
  · rw [if_pos hfull]
    have hne : s.cache ≠ [] := by
      intro he
      rw [he] at hfull
      simp at hfull
      omega
    have hshrink := evict_shrinks h hne
    have hwf1 := wf_evict h
    have hroom : (mapSet (MemoryCache.evictLeastUsed s).cache key
        ⟨v, jsOrDefault ttl cfg.ttl, now, 1, now⟩).length ≤ cfg.maxSize := by
      have := length_mapSet_le (m := (MemoryCache.evictLeastUsed s).cache)
        (k := key) (v := (⟨v, jsOrDefault ttl cfg.ttl, now, 1, now⟩ : CacheItem α))
      have hle := h.sizeLe
      omega
    exact wf_mapSet_refresh hwf1 hkey _ hroom _ _
  · rw [if_neg hfull]
    have hroom : (mapSet s.cache key
        ⟨v, jsOrDefault ttl cfg.ttl, now, 1, now⟩).length ≤ cfg.maxSize := by
      have := length_mapSet_le (m := s.cache) (k := key)
        (v := (⟨v, jsOrDefault ttl cfg.ttl, now, 1, now⟩ : CacheItem α))
      omega
    exact wf_mapSet_refresh h hkey _ hroom _ _

theorem wf_get {cfg : CacheConfig} {s : MemoryCacheState α} (h : CacheWF cfg s)
    (now : Nat) (key : String) : CacheWF cfg (MemoryCache.get s now key).2 := by
  cases hug : mapGet s.cache key with
  | none =>
    rw [get_miss hug]
    exact ⟨h.sizeLe, h.keysCO, h.keysOC, h.nodupCache, h.nodupOrder, h.orderLe,
      h.nodupVals, h.noEmpty⟩
  | some item =>
    by_cases hexp : isExpired now item = true
    · rw [get_expired hug hexp]
      have hd := wf_delete h key
      exact ⟨hd.sizeLe, hd.keysCO, hd.keysOC, hd.nodupCache, hd.nodupOrder,
        hd.orderLe, hd.nodupVals, hd.noEmpty⟩
    · rw [get_hit hug (Bool.not_eq_true _ ▸ hexp)]
      have hkey : key ≠ "" := by
        intro he
        have hco := h.keysCO key (by rw [hug]; simp)
        obtain ⟨w, hw⟩ := Option.isSome_iff_exists.mp hco
        exact h.noEmpty (key, w) (mapGet_eq_some_mem hw) he
      have hroom : (mapSet s.cache key
          { item with accessCount := item.accessCount + 1,
                      lastAccessed := now }).length ≤ cfg.maxSize := by
        rw [length_mapSet_present hug]
        exact h.sizeLe
      exact wf_mapSet_refresh h hkey _ hroom _ _

theorem wf_foldl_delete {cfg : CacheConfig} {s : MemoryCacheState α}
    (h : CacheWF cfg s) (L : List String) :
    CacheWF cfg (L.foldl (fun acc k => MemoryCache.delete acc k) s) := by
  induction L generalizing s with
  | nil => exact h
  | cons k rest ih => exact ih (wf_delete h k)

theorem wf_cleanup {cfg : CacheConfig} {s : MemoryCacheState α} (h : CacheWF cfg s)
    (now : Nat) : CacheWF cfg (MemoryCache.cleanupExpired s now) :=
  wf_foldl_delete h _

theorem wf_applyOp {cfg : CacheConfig} {s : MemoryCacheState α} (h : CacheWF cfg s)
    (hmax : 1 ≤ cfg.maxSize) {op : CacheOp α} (hop : op.keyOk = true) :
    CacheWF cfg (applyOp cfg s op) := by
  cases op with
  | get now key => exact wf_get h now key
  | set now key v ttl =>
    have hkey : key ≠ "" := by
      simp [CacheOp.keyOk] at hop
      exact hop
    exact wf_set h hmax hkey now v ttl
  | del key => exact wf_delete h key
  | cleanup now => exact wf_cleanup h now
  | clear => exact wf_clear

theorem wf_runOps {cfg : CacheConfig} {s : MemoryCacheState α} (h : CacheWF cfg s)
    (hmax : 1 ≤ cfg.maxSize) {ops : List (CacheOp α)}
    (hops : ∀ op ∈ ops, op.keyOk = true) : CacheWF cfg (runOps cfg s ops) := by
  induction ops generalizing s with
  | nil => exact h
  | cons op rest ih =>
    exact ih (wf_applyOp h hmax (hops op (List.mem_cons_self _ _)))
      (fun o ho => hops o (List.mem_cons_of_mem _ ho))

/-! ### `set` unfolding and the LRU scenarios -/

theorem set_full {cfg : CacheConfig} {s : MemoryCacheState α}
    (hfull : cfg.maxSize ≤ s.cache.length) (now : Nat) (key : String) (v : α)
    (ttl : Option Nat) :
    MemoryCache.set cfg s now key v ttl =
      { MemoryCache.evictLeastUsed s with
        cache := mapSet (MemoryCache.evictLeastUsed s).cache key
          ⟨v, jsOrDefault ttl cfg.ttl, now, 1, now⟩,
        accessOrder := mapSet (MemoryCache.evictLeastUsed s).accessOrder key
          ((MemoryCache.evictLeastUsed s).accessCounter + 1),
        accessCounter := (MemoryCache.evictLeastUsed s).accessCounter + 1 } := by
  unfold MemoryCache.set
  rw [if_pos hfull]

theorem set_notfull {cfg : CacheConfig} {s : MemoryCacheState α}
    (hfull : ¬ cfg.maxSize ≤ s.cache.length) (now : Nat) (key : String) (v : α)
    (ttl : Option Nat) :
    MemoryCache.set cfg s now key v ttl =
      { s with
        cache := mapSet s.cache key ⟨v, jsOrDefault ttl cfg.ttl, now, 1, now⟩,
        accessOrder := mapSet s.accessOrder key (s.accessCounter + 1),
        accessCounter := s.accessCounter + 1 } := by
  unfold MemoryCache.set
  rw [if_neg hfull]

theorem ordersFrom_mem {ks : List String} {c : Nat} {p : String × Nat}
    (h : p ∈ ordersFrom c ks) : c + 1 ≤ p.2 := by
  induction ks generalizing c with
  | nil => simp [ordersFrom] at h
  | cons k rest ih =>
    simp only [ordersFrom, List.mem_cons] at h
    rcases h with h | h
    · rw [h]
    · have := ih h
      omega

theorem runSets_fresh (cfg : CacheConfig) (now : Nat) (v : α) :
    ∀ (ks : List String) (s : MemoryCacheState α),
      (∀ k ∈ ks, mapGet s.cache k = none ∧ mapGet s.accessOrder k = none) →
      ks.Nodup → s.cache.length + ks.length ≤ cfg.maxSize →
      runSets cfg now v s ks =
        { s with
          cache := s.cache ++ ks.map (fun k => (k, freshItem now cfg.ttl v)),
          accessOrder := s.accessOrder ++ ordersFrom s.accessCounter ks,
          accessCounter := s.accessCounter + ks.length } := by
  intro ks
  induction ks with
  | nil =>
    intro s _ _ _
    simp [runSets, ordersFrom]
  | cons k rest ih =>
    intro s hfresh hnd hlen
    obtain ⟨hkc, hko⟩ := hfresh k (List.mem_cons_self _ _)
    have hnotfull : ¬ cfg.maxSize ≤ s.cache.length := by
      simp only [List.length_cons] at hlen
      omega
    have hknotin : k ∉ rest := (List.nodup_cons.mp hnd).1
    have hset : MemoryCache.set cfg s now k v none =
        { s with cache := s.cache ++ [(k, freshItem now cfg.ttl v)],
                 accessOrder := s.accessOrder ++ [(k, s.accessCounter + 1)],
                 accessCounter := s.accessCounter + 1 } := by
      rw [set_notfull hnotfull, mapSet_eq_append_of_none hkc,
        mapSet_eq_append_of_none hko]
      rfl
    have hstep : runSets cfg now v s (k :: rest) =
        runSets cfg now v (MemoryCache.set cfg s now k v none) rest := rfl
    rw [hstep, hset]
    rw [ih _ ?_ (List.nodup_cons.mp hnd).2 ?_]
    · congr 1
      · rw [List.append_assoc]
        rfl
      · rw [List.append_assoc]
        simp only [ordersFrom]
        rfl
      · simp only [List.length_cons]
        omega
    · intro k2 hk2
      obtain ⟨hk2c, hk2o⟩ := hfresh k2 (List.mem_cons_of_mem _ hk2)
      have hne : k ≠ k2 := fun he => hknotin (he ▸ hk2)
      constructor
      · simp only
        rw [← mapSet_eq_append_of_none hkc, mapGet_mapSet_ne hne]
        exact hk2c
      · simp only
        rw [← mapSet_eq_append_of_none hko, mapGet_mapSet_ne hne]
        exact hk2o
    · show (s.cache ++ [(k, freshItem now cfg.ttl v)]).length + rest.length ≤
        cfg.maxSize
      simp only [List.length_append, List.length_cons] at hlen ⊢
      simp only [List.length_nil]
      omega

theorem mapDelete_cons_self {l : List (String × β)} {k : String} {it : β} :
    mapDelete ((k, it) :: l) k = mapDelete l k := by
  simp [mapDelete, List.filter_cons]

/-- C4 counterexample: with capacity 1, setting key `""` and then key `"x"`
skips eviction — the JS `if (lruKey)` guard is falsy for the empty-string LRU
key — so the cache ends up holding `2 > 1` entries. -/
theorem c4_empty_key_capacity_overflow :
    (runOps ⟨1000, 1, true, false⟩ initCache
      [CacheOp.set 0 "" (0 : Nat) none, CacheOp.set 0 "x" 0 none]).cache.length = 2 ∧
    ¬ (runOps ⟨1000, 1, true, false⟩ initCache
      [CacheOp.set 0 "" (0 : Nat) none, CacheOp.set 0 "x" 0 none]).cache.length ≤
        (⟨1000, 1, true, false⟩ : CacheConfig).maxSize := by
  constructor
  · rfl
  · decide

/-- C4 (amended with the empty-string proviso): provided no `set` uses the
empty string as key and the capacity is positive, (a) the entry count never
exceeds `maxSize` after any operation sequence from the empty cache; (b) a
`set` of a fresh key at capacity evicts exactly one entry — the key whose
access-order stamp is minimal, i.e. least recently used — keeping the count
at capacity and every other entry present; (c) inserting `N+1` distinct keys
with no intervening reads evicts exactly the first-inserted key; (d) a `set`
never evicts a key that is not least recently used (some other entry has an
older access stamp), which is what intervening reads keeping K hot
guarantee. -/
theorem c4_lru_capacity_and_eviction (cfg : CacheConfig) (h1 : 1 ≤ cfg.maxSize) :
    (∀ (ops : List (CacheOp α)), (∀ op ∈ ops, op.keyOk = true) →
      (runOps cfg initCache ops).cache.length ≤ cfg.maxSize) ∧
    (∀ (s : MemoryCacheState α) (now : Nat) (key : String) (v : α)
        (ttl : Option Nat), CacheWF cfg s → cfg.maxSize ≤ s.cache.length →
      mapGet s.cache key = none → key ≠ "" →
      ∃ ek oek, findLru s.accessOrder = some (ek, oek) ∧
        mapGet s.accessOrder ek = some oek ∧
        (∀ p ∈ s.accessOrder, oek ≤ p.2) ∧
        mapGet (MemoryCache.set cfg s now key v ttl).cache ek = none ∧
        (MemoryCache.set cfg s now key v ttl).cache.length = s.cache.length ∧
        (∀ k2, k2 ≠ ek → (mapGet s.cache k2).isSome →
          (mapGet (MemoryCache.set cfg s now key v ttl).cache k2).isSome)) ∧
    (∀ (first : List String) (last : String) (now : Nat) (v : α),
      (first ++ [last]).Nodup → (∀ k ∈ first ++ [last], k ≠ "") →
      first.length = cfg.maxSize →
      (runSets cfg now v initCache (first ++ [last])).cache.map Prod.fst =
        first.tail ++ [last]) ∧
    (∀ (s : MemoryCacheState α) (now : Nat) (key : String) (v : α)
        (ttl : Option Nat) (K : String) (oK : Nat),
      CacheWF cfg s → mapGet s.accessOrder K = some oK →
      (∃ p ∈ s.accessOrder, p.2 < oK) →
      (mapGet (MemoryCache.set cfg s now key v ttl).cache K).isSome) := by
  refine ⟨?_, ?_, ?_, ?_⟩
  · intro ops hops
    exact (wf_runOps (wf_init cfg) h1 hops).sizeLe
  · intro s now key v ttl hwf hfull hfresh hkey
    have hne : s.cache ≠ [] := by
      intro he
      rw [he] at hfull
      simp at hfull
      omega
    obtain ⟨p, hp⟩ : ∃ p, p ∈ s.cache := by
      cases hcl : s.cache with
      | nil => exact absurd hcl hne
      | cons q r => exact ⟨q, hcl ▸ List.mem_cons_self q r⟩
    have hone : s.accessOrder ≠ [] := by
      intro heo
      have hos := hwf.keysCO p.1 (mapGet_isSome_of_mem hp)
      rw [heo] at hos
      simp [mapGet] at hos
    obtain ⟨b, hb⟩ := Option.isSome_iff_exists.mp (findLru_isSome hone)
    obtain ⟨hbmem, hbmin⟩ := findLru_spec hb
    have hbne : b.1 ≠ "" := hwf.noEmpty b hbmem
    have hbget : mapGet s.accessOrder b.1 = some b.2 :=
      mapGet_of_mem_nodup hwf.nodupOrder hbmem
    obtain ⟨it, hit⟩ := Option.isSome_iff_exists.mp
      (hwf.keysOC b.1 (by rw [hbget]; simp))
    have hkb : key ≠ b.1 := by
      intro he
      rw [he, hit] at hfresh
      cases hfresh
    have hcacheRes : (MemoryCache.set cfg s now key v ttl).cache =
        mapSet (mapDelete s.cache b.1) key ⟨v, jsOrDefault ttl cfg.ttl, now, 1, now⟩ := by
      rw [set_full hfull, evict_eq_delete hb hbne]
      rfl
    have hfresh2 : mapGet (mapDelete s.cache b.1) key = none := by
      rw [mapGet_mapDelete_ne hkb]
      exact hfresh
    refine ⟨b.1, b.2, by simpa using hb, hbget, hbmin, ?_, ?_, ?_⟩
    · rw [hcacheRes, mapGet_mapSet_ne hkb, mapGet_mapDelete_self]
    · rw [hcacheRes, length_mapSet_absent hfresh2]
      have hdellen := length_mapDelete_nodup hwf.nodupCache hit
      omega
    · intro k2 hk2ne hk2s
      rw [hcacheRes]
      by_cases hkk : key = k2
      · rw [← hkk, mapGet_mapSet_self]
        simp
      · rw [mapGet_mapSet_ne hkk, mapGet_mapDelete_ne hk2ne]
        exact hk2s
  · intro first last now v hnd hnonempty hlen
    obtain ⟨k0, rest, rfl⟩ : ∃ k0 rest, first = k0 :: rest := by
      cases hf : first with
      | nil =>
        rw [hf] at hlen
        simp at hlen
        omega
      | cons a r => exact ⟨a, r, rfl⟩
    have hndf : (k0 :: rest).Nodup :=
      (List.sublist_append_left (k0 :: rest) [last]).nodup hnd
    have hlastnotin : last ∉ k0 :: rest := by
      intro hmem
      have hdisj := (List.nodup_append.mp hnd).2.2
      exact hdisj hmem (List.mem_singleton_self last)
    have hA := runSets_fresh cfg now v (k0 :: rest) initCache
      (fun k _ => ⟨rfl, rfl⟩) hndf (by rw [hlen]; simp [initCache])
    have hsplit : runSets cfg now v initCache ((k0 :: rest) ++ [last]) =
        MemoryCache.set cfg (runSets cfg now v initCache (k0 :: rest)) now last v
          none := by
      simp only [runSets, List.foldl_append, List.foldl_cons, List.foldl_nil]
    have hAcache : (runSets cfg now v initCache (k0 :: rest)).cache =
        (k0 :: rest).map (fun k => (k, freshItem now cfg.ttl v)) := by
      rw [hA]
      simp [initCache]
    have hAorder : (runSets cfg now v initCache (k0 :: rest)).accessOrder =
        ordersFrom 0 (k0 :: rest) := by
      rw [hA]
      simp [initCache]
    have hfull : cfg.maxSize ≤ (runSets cfg now v initCache (k0 :: rest)).cache.length := by
      rw [hAcache, List.length_map, ← hlen]
    have hflru : findLru (runSets cfg now v initCache (k0 :: rest)).accessOrder =
        some (k0, 1) := by
      rw [hAorder]
      show findLru ((k0, 0 + 1) :: ordersFrom (0 + 1) rest) = some (k0, 1)
      simp only [Nat.zero_add]
      exact findLru_cons_of_min (fun p hp => by
        have := ordersFrom_mem hp
        omega)
    have hk0ne : k0 ≠ "" := hnonempty k0 (List.mem_cons_self _ _)
    have hcacheRes : (MemoryCache.set cfg (runSets cfg now v initCache (k0 :: rest))
          now last v none).cache =
        mapSet (mapDelete (runSets cfg now v initCache (k0 :: rest)).cache k0) last
          ⟨v, jsOrDefault none cfg.ttl, now, 1, now⟩ := by
      rw [set_full hfull, evict_eq_delete hflru hk0ne]
      rfl
    have hrestnone : mapGet (rest.map (fun k => (k, freshItem now cfg.ttl v))) k0 =
        none := by
      apply mapGet_eq_none_iff.mpr
      intro q hq
      rcases List.mem_map.mp hq with ⟨k, hk, hke⟩
      rw [← hke]
      intro he
      exact (List.nodup_cons.mp hndf).1 (he ▸ hk)
    have hdel : mapDelete (runSets cfg now v initCache (k0 :: rest)).cache k0 =
        rest.map (fun k => (k, freshItem now cfg.ttl v)) := by
      rw [hAcache, List.map_cons, mapDelete_cons_self,
        mapDelete_eq_self_of_none hrestnone]
    have hlastnone : mapGet (rest.map (fun k => (k, freshItem now cfg.ttl v))) last =
        none := by
      apply mapGet_eq_none_iff.mpr
      intro q hq
      rcases List.mem_map.mp hq with ⟨k, hk, hke⟩
      rw [← hke]
      intro he
      exact hlastnotin (he ▸ List.mem_cons_of_mem _ hk)
    rw [hsplit, hcacheRes, hdel, mapSet_eq_append_of_none hlastnone]
    simp only [List.map_append, List.map_map, List.map_cons, List.map_nil,
      List.tail_cons]
    rw [show List.map (Prod.fst ∘ fun k => (k, freshItem now cfg.ttl v)) rest =
      rest from List.map_id rest]
  · intro s now key v ttl K oK hwf hK hother
    obtain ⟨q, hqmem, hqlt⟩ := hother
    have hKc : (mapGet s.cache K).isSome := hwf.keysOC K (by rw [hK]; simp)
    obtain ⟨itK, hitK⟩ := Option.isSome_iff_exists.mp hKc
    by_cases hfull : cfg.maxSize ≤ s.cache.length
    · have hone : s.accessOrder ≠ [] := by
        intro heo
        rw [heo] at hqmem
        exact absurd hqmem (List.not_mem_nil q)
      obtain ⟨b, hb⟩ := Option.isSome_iff_exists.mp (findLru_isSome hone)
      obtain ⟨hbmem, hbmin⟩ := findLru_spec hb
      have hbne : b.1 ≠ "" := hwf.noEmpty b hbmem
      have hbK : b.1 ≠ K := by
        intro he
        have hbget : mapGet s.accessOrder b.1 = some b.2 :=
          mapGet_of_mem_nodup hwf.nodupOrder hbmem
        rw [he, hK] at hbget
        have hb2 : b.2 = oK := by
          cases hbget
          rfl
        have := hbmin q hqmem
        omega
      have hcacheRes : (MemoryCache.set cfg s now key v ttl).cache =
          mapSet (mapDelete s.cache b.1) key
            ⟨v, jsOrDefault ttl cfg.ttl, now, 1, now⟩ := by
        rw [set_full hfull, evict_eq_delete hb hbne]
        rfl
      rw [hcacheRes]
      by_cases hkK : key = K
      · rw [← hkK, mapGet_mapSet_self]
        simp
      · rw [mapGet_mapSet_ne hkK, mapGet_mapDelete_ne (fun he => hbK he.symm),
          hitK]
        simp
    · have hcacheRes : (MemoryCache.set cfg s now key v ttl).cache =
          mapSet s.cache key ⟨v, jsOrDefault ttl cfg.ttl, now, 1, now⟩ := by
        rw [set_notfull hfull]
      rw [hcacheRes]
      by_cases hkK : key = K
      · rw [← hkK, mapGet_mapSet_self]
        simp
      · rw [mapGet_mapSet_ne hkK, hitK]
        simp

/-- Witness for C4: capacity-2 cache, inserting `a, b, c` with no reads
evicts exactly `a`; and the capacity bound at a concrete op sequence. -/
theorem c4_lru_capacity_and_eviction_witness :
    (runSets ⟨1000, 2, true, false⟩ 5 (0 : Nat) initCache (["a", "b"] ++ ["c"])).cache.map
      Prod.fst = List.tail ["a", "b"] ++ ["c"] ∧
    (runOps ⟨1000, 2, true, false⟩ initCache
      [CacheOp.set 0 "a" (0 : Nat) none, CacheOp.set 1 "b" 0 none,
       CacheOp.set 2 "c" 0 none]).cache.length ≤ 2 :=
  ⟨(c4_lru_capacity_and_eviction ⟨1000, 2, true, false⟩ (by norm_num)).2.2.1
      ["a", "b"] "c" 5 0 (by decide) (by decide) rfl,
   (c4_lru_capacity_and_eviction ⟨1000, 2, true, false⟩ (by norm_num)).1
      [CacheOp.set 0 "a" (0 : Nat) none, CacheOp.set 1 "b" 0 none,
       CacheOp.set 2 "c" 0 none] (by decide)⟩

/-! ### TTL lemmas -/

theorem isExpired_mono {t now : Nat} {it : CacheItem α} (h : t ≤ now)
    (hexp : isExpired t it = true) : isExpired now it = true := by
  simp only [isExpired, decide_eq_true_eq] at hexp ⊢
  have := Nat.sub_le_sub_right h it.createdAt
  omega

theorem set_cache_get_self {cfg : CacheConfig} {s : MemoryCacheState α}
    {now : Nat} {key : String} {v : α} {ttl : Option Nat} :
    mapGet (MemoryCache.set cfg s now key v ttl).cache key =
      some ⟨v, jsOrDefault ttl cfg.ttl, now, 1, now⟩ := by
  by_cases hfull : cfg.maxSize ≤ s.cache.length
  · rw [show (MemoryCache.set cfg s now key v ttl).cache =
        mapSet (MemoryCache.evictLeastUsed s).cache key
          ⟨v, jsOrDefault ttl cfg.ttl, now, 1, now⟩ from by rw [set_full hfull]]
    exact mapGet_mapSet_self
  · rw [show (MemoryCache.set cfg s now key v ttl).cache =
        mapSet s.cache key ⟨v, jsOrDefault ttl cfg.ttl, now, 1, now⟩ from by
          rw [set_notfull hfull]]
    exact mapGet_mapSet_self

theorem evict_eq_self_none {s : MemoryCacheState α}
    (h : findLru s.accessOrder = none) : MemoryCache.evictLeastUsed s = s := by
  unfold MemoryCache.evictLeastUsed
  rw [h]

theorem evict_eq_self_empty {s : MemoryCacheState α} {b : String × Nat}
    (h : findLru s.accessOrder = some b) (he : b.1 = "") :
    MemoryCache.evictLeastUsed s = s := by
  unfold MemoryCache.evictLeastUsed
  rw [h]
  simp [he]

theorem mapGet_evict {s : MemoryCacheState α} {k : String} :
    mapGet (MemoryCache.evictLeastUsed s).cache k = mapGet s.cache k ∨
    mapGet (MemoryCache.evictLeastUsed s).cache k = none := by
  cases hf : findLru s.accessOrder with
  | none => left; rw [evict_eq_self_none hf]
  | some b =>
    by_cases hbe : b.1 = ""
    · left
      rw [evict_eq_self_empty hf hbe]
    · rw [evict_eq_delete hf hbe]
      by_cases hkb : k = b.1
      · right
        simp only [MemoryCache.delete]
        rw [hkb, mapGet_mapDelete_self]
      · left
        simp only [MemoryCache.delete]
        rw [mapGet_mapDelete_ne hkb]

theorem mapGet_foldl_delete {L : List String} {s : MemoryCacheState α}
    {key : String} :
    mapGet ((L.foldl (fun acc k => MemoryCache.delete acc k) s).cache) key =
      if key ∈ L then none else mapGet s.cache key := by
  induction L generalizing s with
  | nil => simp
  | cons k rest ih =>
    simp only [List.foldl_cons, List.mem_cons]
    rw [ih]
    by_cases hk : key ∈ rest
    · simp [hk]
    · rw [if_neg hk]
      by_cases hke : key = k
      · rw [if_pos (Or.inl hke)]
        simp only [MemoryCache.delete]
        rw [hke, mapGet_mapDelete_self]
      · rw [if_neg (by simp [hke, hk])]
        simp only [MemoryCache.delete]
        rw [mapGet_mapDelete_ne hke]

theorem entryStable_refl {o : Option (CacheItem α)} : EntryStable o o := by
  cases o with
  | none => left; rfl
  | some it => right; exact ⟨it, rfl, it, rfl, rfl, rfl⟩

theorem entryStable_none {o : Option (CacheItem α)} : EntryStable o none :=
  Or.inl rfl

/-- Any operation that is not a `set` of `k` leaves the `createdAt` and `ttl`
of `k`'s entry untouched (or removes the entry); in particular it can never
(re)introduce `k`. -/
theorem applyOp_entry_stable {cfg : CacheConfig} {s : MemoryCacheState α}
    {k : String} {op : CacheOp α} (hop : op.setsKey k = false) :
    EntryStable (mapGet s.cache k) (mapGet (applyOp cfg s op).cache k) := by
  cases op with
  | get now key =>
    show EntryStable (mapGet s.cache k) (mapGet (MemoryCache.get s now key).2.cache k)
    cases hug : mapGet s.cache key with
    | none =>
      rw [get_miss hug]
      exact entryStable_refl
    | some item =>
      by_cases hexp : isExpired now item = true
      · rw [get_expired hug hexp]
        by_cases hke : k = key
        · refine Or.inl ?_
          show mapGet (mapDelete s.cache key) k = none
          rw [hke, mapGet_mapDelete_self]
        · show EntryStable (mapGet s.cache k) (mapGet (mapDelete s.cache key) k)
          rw [mapGet_mapDelete_ne hke]
          exact entryStable_refl
      · rw [get_hit hug (Bool.not_eq_true _ ▸ hexp)]
        show EntryStable (mapGet s.cache k)
          (mapGet (mapSet s.cache key
            { item with accessCount := item.accessCount + 1,
                        lastAccessed := now }) k)
        by_cases hke : key = k
        · rw [mapGet_mapSet, if_pos (beq_iff_eq.mpr hke)]
          right
          exact ⟨item, by rw [← hke]; exact hug, _, rfl, rfl, rfl⟩
        · rw [mapGet_mapSet_ne hke]
          exact entryStable_refl
  | set now key v ttl =>
    have hkey : ¬ key = k := by
      simpa [CacheOp.setsKey] using hop
    show EntryStable (mapGet s.cache k)
      (mapGet (MemoryCache.set cfg s now key v ttl).cache k)
    by_cases hfull : cfg.maxSize ≤ s.cache.length
    · rw [show (MemoryCache.set cfg s now key v ttl).cache =
          mapSet (MemoryCache.evictLeastUsed s).cache key
            ⟨v, jsOrDefault ttl cfg.ttl, now, 1, now⟩ from by rw [set_full hfull]]
      rw [mapGet_mapSet_ne hkey]
      rcases mapGet_evict (s := s) (k := k) with he | he
      · rw [he]
        exact entryStable_refl
      · rw [he]
        exact entryStable_none
    · rw [show (MemoryCache.set cfg s now key v ttl).cache =
          mapSet s.cache key ⟨v, jsOrDefault ttl cfg.ttl, now, 1, now⟩ from by
            rw [set_notfull hfull]]
      rw [mapGet_mapSet_ne hkey]
      exact entryStable_refl
  | del key =>
    show EntryStable (mapGet s.cache k) (mapGet (MemoryCache.delete s key).cache k)
    by_cases hke : k = key
    · refine Or.inl ?_
      show mapGet (mapDelete s.cache key) k = none
      rw [hke, mapGet_mapDelete_self]
    · show EntryStable (mapGet s.cache k) (mapGet (mapDelete s.cache key) k)
      rw [mapGet_mapDelete_ne hke]
      exact entryStable_refl
  | cleanup now =>
    show EntryStable (mapGet s.cache k)
      (mapGet (MemoryCache.cleanupExpired s now).cache k)
    unfold MemoryCache.cleanupExpired
    rw [mapGet_foldl_delete]
    split
    · exact entryStable_none
    · exact entryStable_refl
  | clear =>
    refine Or.inl ?_
    show mapGet ([] : List (String × CacheItem α)) k = none
    rfl

/-- Once an entry is absent-or-expired (relative to time `t`), any sequence
of operations that never `set`s its key keeps it absent-or-expired. -/
theorem runOps_expired_stays {cfg : CacheConfig} {s : MemoryCacheState α}
    {k : String} {t : Nat}
    (hinv : mapGet s.cache k = none ∨
      ∃ it, mapGet s.cache k = some it ∧ isExpired t it = true)
    {ops : List (CacheOp α)} (hops : ∀ op ∈ ops, op.setsKey k = false) :
    mapGet (runOps cfg s ops).cache k = none ∨
      ∃ it, mapGet (runOps cfg s ops).cache k = some it ∧ isExpired t it = true := by
  induction ops generalizing s with
  | nil => exact hinv
  | cons op rest ih =>
    refine ih (s := applyOp cfg s op) ?_ (fun o ho => hops o (List.mem_cons_of_mem _ ho))
    have hst := @applyOp_entry_stable _ cfg s k op
      (hops op (List.mem_cons_self _ _))
    rcases hst with hnone | ⟨it, hbef, it2, haft, hca, htl⟩
    · exact Or.inl hnone
    · rcases hinv with hn | ⟨it0, hsome, hexp⟩
      · rw [hn] at hbef
        cases hbef
      · rw [hsome] at hbef
        injection hbef with he
        subst he
        refine Or.inr ⟨it2, haft, ?_⟩
        simp only [isExpired, hca, htl]
        simpa [isExpired] using hexp

/-- C5: TTL semantics of `MemoryCache`.  (a) an entry set with `ttl = 100` at
`t0` is returned by a `get` at `t0 + 50` and absent at `t0 + 150`; (b) a read
of a present entry returns absent exactly when `now - createdAt > ttl`, and a
read of an absent key returns absent; (c) the background sweep at any earlier
time never changes what a read returns, so logical absence is independent of
physical sweeping; (d) once an entry is expired, any operation sequence that
never `set`s that key leaves every later read absent — only a `set` of the
same key can make it present again. -/
theorem c5_ttl_expiry (cfg : CacheConfig) :
    (∀ (s : MemoryCacheState α) (t0 : Nat) (key : String) (v : α),
      (MemoryCache.get (MemoryCache.set cfg s t0 key v (some 100)) (t0 + 50) key).1 =
        some v ∧
      (MemoryCache.get (MemoryCache.set cfg s t0 key v (some 100)) (t0 + 150) key).1 =
        none) ∧
    (∀ (s : MemoryCacheState α) (now : Nat) (key : String) (item : CacheItem α),
      mapGet s.cache key = some item →
      (MemoryCache.get s now key).1 =
        (if item.ttl < now - item.createdAt then none else some item.value)) ∧
    (∀ (s : MemoryCacheState α) (now : Nat) (key : String),
      mapGet s.cache key = none → (MemoryCache.get s now key).1 = none) ∧
    (∀ (s : MemoryCacheState α) (tc now : Nat) (key : String),
      (s.cache.map Prod.fst).Nodup → tc ≤ now →
      (MemoryCache.get (MemoryCache.cleanupExpired s tc) now key).1 =
        (MemoryCache.get s now key).1) ∧
    (∀ (s : MemoryCacheState α) (key : String) (item : CacheItem α) (t : Nat),
      mapGet s.cache key = some item → isExpired t item = true →
      ∀ (ops : List (CacheOp α)), (∀ op ∈ ops, op.setsKey key = false) →
      ∀ now, t ≤ now →
      (MemoryCache.get (runOps cfg s ops) now key).1 = none) := by
  refine ⟨?_, ?_, ?_, ?_, ?_⟩
  · intro s t0 key v
    have hset : mapGet (MemoryCache.set cfg s t0 key v (some 100)).cache key =
        some ⟨v, 100, t0, 1, t0⟩ := by
      have h := @set_cache_get_self _ cfg s t0 key v (some 100)
      simpa [jsOrDefault] using h
    constructor
    · have h50 : t0 + 50 - t0 = 50 := by omega
      have hexp : isExpired (t0 + 50) (⟨v, 100, t0, 1, t0⟩ : CacheItem α) = false := by
        simp [isExpired, h50]
      rw [get_hit hset hexp]
    · have h150 : t0 + 150 - t0 = 150 := by omega
      have hexp : isExpired (t0 + 150) (⟨v, 100, t0, 1, t0⟩ : CacheItem α) = true := by
        simp [isExpired, h150]
      rw [get_expired hset hexp]
  · intro s now key item hsome
    by_cases hexp : isExpired now item = true
    · rw [get_expired hsome hexp]
      have hcond : item.ttl < now - item.createdAt := by
        simpa [isExpired] using hexp
      rw [if_pos hcond]
    · rw [get_hit hsome (Bool.not_eq_true _ ▸ hexp)]
      have hcond : ¬ item.ttl < now - item.createdAt := by
        simpa [isExpired] using hexp
      rw [if_neg hcond]
  · intro s now key hnone
    rw [get_miss hnone]
  · intro s tc now key hnd htcnow
    have hclean : mapGet (MemoryCache.cleanupExpired s tc).cache key =
        if key ∈ (s.cache.filter (fun p => isExpired tc p.2)).map (fun p => p.1)
        then none else mapGet s.cache key := by
      unfold MemoryCache.cleanupExpired
      exact mapGet_foldl_delete
    by_cases hk : key ∈ (s.cache.filter (fun p => isExpired tc p.2)).map (fun p => p.1)
    · obtain ⟨item, hsome, hexp⟩ :
          ∃ item, mapGet s.cache key = some item ∧ isExpired tc item = true := by
        rcases List.mem_map.mp hk with ⟨p, hpfil, hpe⟩
        have hpc := List.mem_filter.mp hpfil
        refine ⟨p.2, ?_, hpc.2⟩
        rw [← hpe]
        exact mapGet_of_mem_nodup hnd hpc.1
      rw [get_miss (by rw [hclean, if_pos hk]),
        get_expired hsome (isExpired_mono htcnow hexp)]
    · have hsame : mapGet (MemoryCache.cleanupExpired s tc).cache key =
          mapGet s.cache key := by
        rw [hclean, if_neg hk]
      cases hg : mapGet s.cache key with
      | none => rw [get_miss (hsame.trans hg), get_miss hg]
      | some item =>
        by_cases hexp : isExpired now item = true
        · rw [get_expired (hsame.trans hg) hexp, get_expired hg hexp]
        · rw [get_hit (hsame.trans hg) (Bool.not_eq_true _ ▸ hexp),
            get_hit hg (Bool.not_eq_true _ ▸ hexp)]
  · intro s key item t hsome hexp ops hops now hnow
    have hinv := @runOps_expired_stays _ cfg s key t
      (Or.inr ⟨item, hsome, hexp⟩) ops hops
    rcases hinv with hn | ⟨it2, hsome2, hexp2⟩
    · rw [get_miss hn]
    · rw [get_expired hsome2 (isExpired_mono hnow hexp2)]

/-- Witness for C5 at concrete inputs: from a cache holding `"a"` with
`ttl = 100` created at time 0, the sweep at time 200 does not change the read
at time 300, and after a read at time 150 (no `set`), the entry stays absent
at time 200. -/
theorem c5_ttl_expiry_witness :
    (MemoryCache.get
        (MemoryCache.cleanupExpired
          (MemoryCache.set ⟨1000, 10, true, false⟩ initCache 0 "a" (0 : Nat)
            (some 100)) 200) 300 "a").1 =
      (MemoryCache.get
        (MemoryCache.set ⟨1000, 10, true, false⟩ initCache 0 "a" (0 : Nat)
          (some 100)) 300 "a").1 ∧
    (MemoryCache.get
        (runOps ⟨1000, 10, true, false⟩
          (MemoryCache.set ⟨1000, 10, true, false⟩ initCache 0 "a" (0 : Nat)
            (some 100)) [CacheOp.get 150 "a"]) 200 "a").1 = none :=
  ⟨(c5_ttl_expiry ⟨1000, 10, true, false⟩).2.2.2.1
      (MemoryCache.set ⟨1000, 10, true, false⟩ initCache 0 "a" (0 : Nat) (some 100))
      200 300 "a" (by decide) (by decide),
   (c5_ttl_expiry ⟨1000, 10, true, false⟩).2.2.2.2
      (MemoryCache.set ⟨1000, 10, true, false⟩ initCache 0 "a" (0 : Nat) (some 100))
      "a" ⟨0, 100, 0, 1, 0⟩ 150 (by decide) (by decide) [CacheOp.get 150 "a"]
      (by decide) 200 (by decide)⟩

/-! ### Semaphore lemmas -/

theorem semRelease_with_waiter {p : Int} {o : Nat} {w : Nat} {rest : List Nat}
    (ho : 1 ≤ o) :
    semRelease ⟨p, w :: rest, o⟩ = ⟨p, rest, o⟩ := by
  have h1 : p + 1 - 1 = p := by ring
  have h2 : o - 1 + 1 = o := by omega
  simp [semRelease, h1, h2]

theorem runSem_inv {n : Nat} :
    ∀ (es : List SemEvent) (s : SemState), semValid s es →
      s.permits + (s.outstanding : Int) = (n : Int) → 0 ≤ s.permits →
      (s.waitQueue ≠ [] → s.permits = 0) →
      (runSem s es).permits + ((runSem s es).outstanding : Int) = (n : Int) ∧
      0 ≤ (runSem s es).permits ∧
      ((runSem s es).waitQueue ≠ [] → (runSem s es).permits = 0) := by
  intro es
  induction es with
  | nil =>
    intro s _ h1 h2 h3
    exact ⟨h1, h2, h3⟩
  | cons e rest ih =>
    intro s hv h1 h2 h3
    obtain ⟨p, q, o⟩ := s
    cases e with
    | acquire id =>
      simp only [semValid] at hv
      have hrun : runSem ⟨p, q, o⟩ (SemEvent.acquire id :: rest) =
          runSem (semAcquire ⟨p, q, o⟩ id) rest := rfl
      rw [hrun]
      by_cases hp : 0 < p
      · have hacq : semAcquire ⟨p, q, o⟩ id = ⟨p - 1, q, o + 1⟩ := by
          simp [semAcquire, hp]
        rw [hacq] at hv ⊢
        refine ih _ hv ?_ ?_ ?_
        · push_cast
          push_cast at h1
          omega
        · simp only at h2 ⊢
          omega
        · intro hq
          exfalso
          have hp0 : p = 0 := h3 hq
          omega
      · have hacq : semAcquire ⟨p, q, o⟩ id = ⟨p, q ++ [id], o⟩ := by
          simp [semAcquire, hp]
        rw [hacq] at hv ⊢
        refine ih _ hv h1 h2 ?_
        intro _
        show p = 0
        have h2b : 0 ≤ p := h2
        have hpb : ¬ 0 < p := hp
        omega
    | release =>
      simp only [semValid] at hv
      obtain ⟨ho, hv2⟩ := hv
      have hrun : runSem ⟨p, q, o⟩ (SemEvent.release :: rest) =
          runSem (semRelease ⟨p, q, o⟩) rest := rfl
      rw [hrun]
      cases hq : q with
      | nil =>
        subst hq
        have hrel : semRelease ⟨p, [], o⟩ = ⟨p + 1, [], o - 1⟩ := by
          simp [semRelease]
        rw [hrel] at hv2 ⊢
        refine ih _ hv2 ?_ ?_ ?_
        · push_cast [Nat.cast_sub ho]
          push_cast at h1
          omega
        · simp only at h2 ⊢
          omega
        · intro hfalse
          exact absurd rfl hfalse
      | cons w rest2 =>
        subst hq
        have hrel : semRelease ⟨p, w :: rest2, o⟩ = ⟨p, rest2, o⟩ :=
          semRelease_with_waiter ho
        rw [hrel] at hv2 ⊢
        refine ih _ hv2 h1 h2 ?_
        intro hne
        apply h3
        exact List.cons_ne_nil w rest2

/-- C6: for any valid event sequence (each `release` performed by a current
holder) from a fresh semaphore of capacity `n`, the number of outstanding
permits never exceeds `n` (first conjunct); an `acquire` with no free permit
joins the tail of the wait queue (second conjunct); and a `release` while
callers wait hands the permit directly to the head of the queue — the
longest-waiting caller — leaving the free-permit count unchanged (nothing is
returned to the pool) and the rest of the queue in order (third conjunct). -/
theorem c6_semaphore_capacity_and_fifo (n : Nat) :
    (∀ es : List SemEvent, semValid (semInit n) es →
      (runSem (semInit n) es).outstanding ≤ n) ∧
    (∀ (s : SemState) (id : Nat), ¬ 0 < s.permits →
      semAcquire s id = { s with waitQueue := s.waitQueue ++ [id] }) ∧
    (∀ (s : SemState) (w : Nat) (rest : List Nat), 1 ≤ s.outstanding →
      s.waitQueue = w :: rest →
      semRelease s = { s with waitQueue := rest }) := by
  refine ⟨?_, ?_, ?_⟩
  · intro es hv
    have h := runSem_inv (n := n) es (semInit n) hv (by simp [semInit])
      (by simp [semInit]) (by simp [semInit])
    omega
  · intro s id hp
    obtain ⟨p, q, o⟩ := s
    simp only at hp
    simp [semAcquire, hp]
  · intro s w rest ho hq
    obtain ⟨p, q, o⟩ := s
    simp only at ho hq
    rw [hq]
    simp only
    exact semRelease_with_waiter ho

/-- Witness for C6: capacity 2, callers 1 and 2 acquire, caller 3 waits,
a release grants caller 3; outstanding never exceeded 2. -/
theorem c6_semaphore_capacity_and_fifo_witness :
    (runSem (semInit 2)
      [SemEvent.acquire 1, SemEvent.acquire 2, SemEvent.acquire 3,
       SemEvent.release, SemEvent.release, SemEvent.release]).outstanding ≤ 2 ∧
    semRelease ⟨0, [3], 2⟩ = { permits := 0, waitQueue := [], outstanding := 2 } :=
  ⟨(c6_semaphore_capacity_and_fifo 2).1 _ (by simp [semValid, semAcquire, semRelease, semInit]),
   (c6_semaphore_capacity_and_fifo 2).2.2 ⟨0, [3], 2⟩ 3 [] (by norm_num) rfl⟩

/-! ### Batch lemmas -/

theorem batchTask_none {inputs : List ι} {outcome : ι → Except ε α}
    {st : BatchState ε α} {i : Nat} (hx : inputs[i]? = none) :
    batchTask inputs outcome st i = st := by
  unfold batchTask
  rw [hx]

theorem batchTask_ok {inputs : List ι} {outcome : ι → Except ε α}
    {st : BatchState ε α} {i : Nat} {x : ι} {v : α}
    (hx : inputs[i]? = some x) (ho : outcome x = Except.ok v) :
    batchTask inputs outcome st i =
      { st with results := st.results.set i (some (Except.ok v)),
                successCount := st.successCount + 1 } := by
  unfold batchTask
  rw [hx]
  show (match outcome x with
      | Except.ok v =>
        { st with results := st.results.set i (some (Except.ok v)),
                  successCount := st.successCount + 1 }
      | Except.error e =>
        { st with results := st.results.set i (some (Except.error e)),
                  errorCount := st.errorCount + 1 } : BatchState ε α) = _
  rw [ho]

theorem batchTask_error {inputs : List ι} {outcome : ι → Except ε α}
    {st : BatchState ε α} {i : Nat} {x : ι} {e : ε}
    (hx : inputs[i]? = some x) (ho : outcome x = Except.error e) :
    batchTask inputs outcome st i =
      { st with results := st.results.set i (some (Except.error e)),
                errorCount := st.errorCount + 1 } := by
  unfold batchTask
  rw [hx]
  show (match outcome x with
      | Except.ok v =>
        { st with results := st.results.set i (some (Except.ok v)),
                  successCount := st.successCount + 1 }
      | Except.error e =>
        { st with results := st.results.set i (some (Except.error e)),
                  errorCount := st.errorCount + 1 } : BatchState ε α) = _
  rw [ho]

theorem batchTask_length {inputs : List ι} {outcome : ι → Except ε α}
    {st : BatchState ε α} {i : Nat} :
    (batchTask inputs outcome st i).results.length = st.results.length := by
  cases hx : inputs[i]? with
  | none => rw [batchTask_none hx]
  | some x =>
    cases ho : outcome x with
    | ok v => rw [batchTask_ok hx ho]; simp
    | error e => rw [batchTask_error hx ho]; simp

theorem batchTask_untouched {inputs : List ι} {outcome : ι → Except ε α}
    {st : BatchState ε α} {i j : Nat} (hji : j ≠ i) :
    (batchTask inputs outcome st i).results[j]? = st.results[j]? := by
  cases hx : inputs[i]? with
  | none => rw [batchTask_none hx]
  | some x =>
    cases ho : outcome x with
    | ok v =>
      rw [batchTask_ok hx ho]
      exact List.getElem?_set_ne (fun he => hji he.symm)
    | error e =>
      rw [batchTask_error hx ho]
      exact List.getElem?_set_ne (fun he => hji he.symm)

theorem batchAux_length {inputs : List ι} {outcome : ι → Except ε α} :
    ∀ (order : List Nat) (st : BatchState ε α),
      (order.foldl (batchTask inputs outcome) st).results.length =
        st.results.length := by
  intro order
  induction order with
  | nil => intro st; rfl
  | cons i rest ih =>
    intro st
    rw [List.foldl_cons, ih, batchTask_length]

theorem batchAux_untouched {inputs : List ι} {outcome : ι → Except ε α} :
    ∀ (order : List Nat) (st : BatchState ε α) (j : Nat), j ∉ order →
      (order.foldl (batchTask inputs outcome) st).results[j]? =
        st.results[j]? := by
  intro order
  induction order with
  | nil =>
    intro st j _
    rfl
  | cons i rest ih =>
    intro st j hj
    have hji : j ≠ i := fun he => hj (he ▸ List.mem_cons_self i rest)
    have hjr : j ∉ rest := fun hm => hj (List.mem_cons_of_mem _ hm)
    rw [List.foldl_cons, ih _ j hjr, batchTask_untouched hji]

theorem batchAux_written {inputs : List ι} {outcome : ι → Except ε α} :
    ∀ (order : List Nat) (st : BatchState ε α) (j : Nat) (x : ι),
      st.results.length = inputs.length → inputs[j]? = some x → j ∈ order →
      (order.foldl (batchTask inputs outcome) st).results[j]? =
        some (some (outcome x)) := by
  intro order
  induction order with
  | nil =>
    intro st j x _ _ hj
    exact absurd hj (List.not_mem_nil j)
  | cons i rest ih =>
    intro st j x hlen hx hj
    have hjlt : j < inputs.length := by
      cases hlt : decide (j < inputs.length) with
      | true => exact of_decide_eq_true hlt
      | false =>
        rw [List.getElem?_eq_none (Nat.le_of_not_lt (of_decide_eq_false hlt))] at hx
        cases hx
    have hlen2 : (batchTask inputs outcome st i).results.length = inputs.length := by
      rw [batchTask_length]
      exact hlen
    by_cases hji : j = i
    · subst hji
      have hstep : ((batchTask inputs outcome st j).results)[j]? =
          some (some (outcome x)) := by
        cases ho : outcome x with
        | ok v =>
          rw [batchTask_ok hx ho]
          exact List.getElem?_set_eq_of_lt _ (by rw [hlen]; exact hjlt)
        | error e =>
          rw [batchTask_error hx ho]
          exact List.getElem?_set_eq_of_lt _ (by rw [hlen]; exact hjlt)
      rw [List.foldl_cons]
      by_cases hjr : j ∈ rest
      · exact ih _ j x hlen2 hx hjr
      · rw [batchAux_untouched rest _ j hjr]
        exact hstep
    · rw [List.foldl_cons]
      exact ih _ j x hlen2 hx ((List.mem_cons.mp hj).resolve_left hji)

theorem batchAux_counts {inputs : List ι} {outcome : ι → Except ε α} :
    ∀ (order : List Nat) (st : BatchState ε α),
      (∀ i ∈ order, i < inputs.length) →
      (order.foldl (batchTask inputs outcome) st).successCount +
        (order.foldl (batchTask inputs outcome) st).errorCount =
        st.successCount + st.errorCount + order.length := by
  intro order
  induction order with
  | nil =>
    intro st _
    rfl
  | cons i rest ih =>
    intro st hbound
    have hi : i < inputs.length := hbound i (List.mem_cons_self _ _)
    obtain ⟨x, hx⟩ : ∃ x, inputs[i]? = some x :=
      ⟨inputs[i], List.getElem?_eq_getElem hi⟩
    rw [List.foldl_cons, ih _ (fun j hj => hbound j (List.mem_cons_of_mem _ hj))]
    cases ho : outcome x with
    | ok v =>
      rw [batchTask_ok hx ho]
      simp [List.length_cons]
      omega
    | error e =>
      rw [batchTask_error hx ho]
      simp [List.length_cons]
      omega

/-- C7: a batch call (`batchSearch` / `batchGetSongs` / `batchRequest`) over
`inputs`, with tasks completing in any permutation `order` of the indices,
yields a result array of the same length as the input whose slot `j` holds
exactly the outcome (success value or error) of input item `j`; one item's
error is recorded at its own index without affecting any other slot, and
`successCount + errorCount` equals the input length. -/
theorem c7_batch_order_preservation {ι ε α : Type}
    (inputs : List ι) (outcome : ι → Except ε α) (order : List Nat)
    (hperm : order.Perm (List.range inputs.length)) :
    (batchRun inputs outcome order).results.length = inputs.length ∧
    (∀ (j : Nat) (x : ι), inputs[j]? = some x →
      (batchRun inputs outcome order).results[j]? = some (some (outcome x))) ∧
    (batchRun inputs outcome order).successCount +
      (batchRun inputs outcome order).errorCount = inputs.length := by
  have hmem : ∀ j, j < inputs.length → j ∈ order := by
    intro j hj
    exact hperm.mem_iff.mpr (List.mem_range.mpr hj)
  have hbound : ∀ i ∈ order, i < inputs.length := by
    intro i hi
    exact List.mem_range.mp (hperm.mem_iff.mp hi)
  have hlen : order.length = inputs.length := by
    rw [hperm.length_eq, List.length_range]
  refine ⟨?_, ?_, ?_⟩
  · unfold batchRun
    rw [batchAux_length]
    simp
  · intro j x hx
    have hjlt : j < inputs.length := by
      cases hlt : decide (j < inputs.length) with
      | true => exact of_decide_eq_true hlt
      | false =>
        rw [List.getElem?_eq_none (Nat.le_of_not_lt (of_decide_eq_false hlt))] at hx
        cases hx
    exact batchAux_written order _ j x (by simp) hx (hmem j hjlt)
  · unfold batchRun
    rw [batchAux_counts order _ hbound]
    simpa using hlen

/-- Witness for C7: inputs `[10, 20, 30]` where item `20` fails, completing
in the order `2, 0, 1`: every slot holds its own item's outcome and the
counts add up to 3. -/
theorem c7_batch_order_preservation_witness :
    (batchRun [10, 20, 30]
        (fun x => if x = 20 then Except.error "boom" else Except.ok x)
        [2, 0, 1]).results[1]? = some (some (Except.error "boom")) ∧
    (batchRun [10, 20, 30]
        (fun x => if x = 20 then Except.error "boom" else Except.ok x)
        [2, 0, 1]).successCount +
      (batchRun [10, 20, 30]
        (fun x => if x = 20 then Except.error "boom" else Except.ok x)
        [2, 0, 1]).errorCount = 3 := by
  have h := c7_batch_order_preservation [10, 20, 30]
    (fun x => if x = 20 then Except.error "boom" else Except.ok x) [2, 0, 1]
    (by decide)
  exact ⟨by simpa using h.2.1 1 20 rfl, h.2.2⟩

/-! ### Fan-out lemmas -/

theorem searchAll_lookup {ε σ : Type} (available : Platform → Bool)
    (outcome : Platform → Except ε σ) :
    ∀ (targets : List Platform) (acc : List (Platform × Except ε σ)) (p : Platform),
      mapGet (targets.foldl (fun results q =>
          if available q then mapSet results q (outcome q) else results) acc) p =
        if p ∈ targets ∧ available p = true then some (outcome p)
        else mapGet acc p := by
  intro targets
  induction targets with
  | nil =>
    intro acc p
    simp
  | cons q rest ih =>
    intro acc p
    rw [List.foldl_cons, ih]
    by_cases hpq : p = q
    · subst hpq
      cases hav : available p with
      | true => simp [hav, mapGet_mapSet_self]
      | false => simp [hav]
    · have hqp : q ≠ p := fun he => hpq he.symm
      have hinner : mapGet (if available q = true then mapSet acc q (outcome q)
          else acc) p = mapGet acc p := by
        split
        · exact mapGet_mapSet_ne hqp
        · rfl
      rw [hinner]
      simp [List.mem_cons, hpq]

/-- C8: `searchAll` over any target list completes as a total function (no
exception escapes: each provider's thrown error is caught and stored), and
the result map holds, for every target platform with an available adapter,
exactly that platform's own settled outcome — success value or error —
independently of every other platform's outcome (first conjunct); platforms
without an adapter get no entry (second conjunct). -/
theorem c8_searchAll_partial_failure_isolation {ε σ : Type}
    (available : Platform → Bool) (outcome : Platform → Except ε σ)
    (targets : List Platform) :
    (∀ p ∈ targets, available p = true →
      mapGet (searchAll available outcome targets) p = some (outcome p)) ∧
    (∀ p, available p = false →
      mapGet (searchAll available outcome targets) p = none) := by
  constructor
  · intro p hp hav
    unfold searchAll
    rw [searchAll_lookup, if_pos ⟨hp, hav⟩]
  · intro p hav
    unfold searchAll
    rw [searchAll_lookup, if_neg (by simp [hav])]
    rfl

/-- Witness for C8: three targets where `qq` always errors and the others
succeed — `qq`'s entry is its error, `netease`'s and `kugou`'s entries are
their successes. -/
theorem c8_searchAll_partial_failure_isolation_witness :
    mapGet (searchAll (fun _ => true)
        (fun p => if p = Platform.qq then Except.error "down" else Except.ok 7)
        [Platform.netease, Platform.qq, Platform.kugou]) Platform.qq =
      some (Except.error "down") ∧
    mapGet (searchAll (fun _ => true)
        (fun p => if p = Platform.qq then Except.error "down" else Except.ok 7)
        [Platform.netease, Platform.qq, Platform.kugou]) Platform.netease =
      some (Except.ok 7) := by
  have h := c8_searchAll_partial_failure_isolation (fun _ => true)
    (fun p => if p = Platform.qq then Except.error "down" else Except.ok (7 : Nat))
    [Platform.netease, Platform.qq, Platform.kugou]
  exact ⟨by simpa using h.1 Platform.qq (by decide) rfl,
    by simpa using h.1 Platform.netease (by decide) rfl⟩

/-! ### Warmup lemmas -/

theorem foldSet_fresh (cfg : CacheConfig) (now : Nat) (ttl : Option Nat) :
    ∀ (kvs : List (String × α)) (s : MemoryCacheState α),
      (∀ q ∈ kvs, mapGet s.cache q.1 = none ∧ mapGet s.accessOrder q.1 = none) →
      (kvs.map Prod.fst).Nodup → s.cache.length + kvs.length ≤ cfg.maxSize →
      kvs.foldl (fun l1 it => MemoryCache.set cfg l1 now it.1 it.2 ttl) s =
        { s with
          cache := s.cache ++ kvs.map (fun q =>
            (q.1, freshItem now (jsOrDefault ttl cfg.ttl) q.2)),
          accessOrder := s.accessOrder ++
            ordersFrom s.accessCounter (kvs.map Prod.fst),
          accessCounter := s.accessCounter + kvs.length } := by
  intro kvs
  induction kvs with
  | nil =>
    intro s _ _ _
    simp [ordersFrom]
  | cons q rest ih =>
    intro s hfresh hnd hlen
    obtain ⟨hkc, hko⟩ := hfresh q (List.mem_cons_self _ _)
    have hnotfull : ¬ cfg.maxSize ≤ s.cache.length := by
      simp only [List.length_cons] at hlen
      omega
    have hknotin : q.1 ∉ rest.map Prod.fst := by
      rw [List.map_cons, List.nodup_cons] at hnd
      exact hnd.1
    have hset : MemoryCache.set cfg s now q.1 q.2 ttl =
        { s with
          cache := s.cache ++ [(q.1, freshItem now (jsOrDefault ttl cfg.ttl) q.2)],
          accessOrder := s.accessOrder ++ [(q.1, s.accessCounter + 1)],
          accessCounter := s.accessCounter + 1 } := by
      rw [set_notfull hnotfull, mapSet_eq_append_of_none hkc,
        mapSet_eq_append_of_none hko]
      rfl
    rw [List.foldl_cons, hset]
    rw [ih _ ?_ ?_ ?_]
    · congr 1
      · rw [List.append_assoc]
        rfl
      · rw [List.append_assoc]
        simp only [List.map_cons, ordersFrom]
        rfl
      · simp only [List.length_cons]
        omega
    · intro q2 hq2
      obtain ⟨hq2c, hq2o⟩ := hfresh q2 (List.mem_cons_of_mem _ hq2)
      have hne : q.1 ≠ q2.1 := by
        intro he
        exact hknotin (he ▸ List.mem_map_of_mem _ hq2)
      constructor
      · show mapGet (s.cache ++ [(q.1, freshItem now (jsOrDefault ttl cfg.ttl) q.2)])
          q2.1 = none
        rw [← mapSet_eq_append_of_none hkc, mapGet_mapSet_ne hne]
        exact hq2c
      · show mapGet (s.accessOrder ++ [(q.1, s.accessCounter + 1)]) q2.1 = none
        rw [← mapSet_eq_append_of_none hko, mapGet_mapSet_ne hne]
        exact hq2o
    · rw [List.map_cons, List.nodup_cons] at hnd
      exact hnd.2
    · show (s.cache ++ [(q.1, freshItem now (jsOrDefault ttl cfg.ttl) q.2)]).length +
        rest.length ≤ cfg.maxSize
      simp only [List.length_append, List.length_cons] at hlen ⊢
      simp only [List.length_nil]
      omega

theorem warmupItemMap_eq :
    ∀ (items : List (WarmupItem α)) (acc : List (String × α)),
      (∀ it ∈ items, mapGet acc it.key = none) →
      (items.map WarmupItem.key).Nodup →
      items.foldl (fun m it => mapSet m it.key it.value) acc =
        acc ++ items.map (fun it => (it.key, it.value)) := by
  intro items
  induction items with
  | nil =>
    intro acc _ _
    simp
  | cons it rest ih =>
    intro acc hfresh hnd
    rw [List.map_cons, List.nodup_cons] at hnd
    have hitf := hfresh it (List.mem_cons_self _ _)
    rw [List.foldl_cons, mapSet_eq_append_of_none hitf, ih _ ?_ hnd.2]
    · rw [List.append_assoc]
      rfl
    · intro it2 hit2
      have hne : it.key ≠ it2.key := by
        intro he
        exact hnd.1 (he ▸ List.mem_map_of_mem _ hit2)
      rw [← mapSet_eq_append_of_none hitf, mapGet_mapSet_ne hne]
      exact hfresh it2 (List.mem_cons_of_mem _ hit2)

theorem jsOrDefault_falsy {o : Option Nat} {d : Nat} (h : jsFalsyNum o = true) :
    jsOrDefault o d = d := by
  cases o with
  | none => rfl
  | some t =>
    have ht : t = 0 := by simpa [jsFalsyNum] using h
    simp [jsOrDefault, ht]

theorem foldTtl_keep {α : Type} :
    ∀ (items : List (WarmupItem α)) (acc : Option Nat),
      jsFalsyNum acc = false →
      items.foldl (fun a it => if jsFalsyNum a then it.ttl else a) acc = acc := by
  intro items
  induction items with
  | nil =>
    intro acc _
    rfl
  | cons it rest ih =>
    intro acc hf
    rw [List.foldl_cons, if_neg (by simp [hf]), ih _ hf]

theorem warmupCommonTtl_spec {α : Type} :
    ∀ (items : List (WarmupItem α)) (acc : Option Nat) (d : Nat),
      jsFalsyNum acc = true →
      jsOrDefault (items.foldl (fun a it => if jsFalsyNum a then it.ttl else a) acc) d =
        jsOrDefault (firstTruthyTtl items) d := by
  intro items
  induction items with
  | nil =>
    intro acc d hf
    rw [List.foldl_nil, jsOrDefault_falsy hf]
    rfl
  | cons it rest ih =>
    intro acc d hf
    rw [List.foldl_cons, if_pos hf]
    cases hitf : jsFalsyNum it.ttl with
    | true =>
      rw [ih _ d hitf]
      unfold firstTruthyTtl
      rw [List.find?_cons_of_neg _ (by simp [hitf])]
    | false =>
      rw [foldTtl_keep rest _ hitf]
      unfold firstTruthyTtl
      rw [List.find?_cons_of_pos _ (by simp [hitf])]

/-- C9 counterexample: for `items = [(a, ttl 0), (b, ttl 5)]` the claim's
selection rule (the ttl of the first entry whose ttl is *set*) picks `0`, and
the write would then store the cache default (`99` here, since a ttl of `0`
falls back in `MemoryCache.set`); but `commonTtl` skips the `0` because
`!commonTtl` is JavaScript-truthy for `0`, so both entries are stored with
the *second* entry's ttl `5` — the later entry's ttl is applied, not
ignored. -/
theorem c9_warmup_zero_ttl_counterexample :
    firstProvidedTtl [⟨"a", (1 : Nat), some 0⟩, ⟨"b", 2, some 5⟩] = some 0 ∧
    warmupCommonTtl [⟨"a", (1 : Nat), some 0⟩, ⟨"b", 2, some 5⟩] = some 5 ∧
    (mapGet (CacheManager.warmup ⟨99, 10, true, false⟩ initCacheManager 0
        [⟨"a", (1 : Nat), some 0⟩, ⟨"b", 2, some 5⟩]).l1.cache "a").map
      CacheItem.ttl = some 5 ∧
    jsOrDefault (some 0) 99 = 99 ∧ (5 : Nat) ≠ 0 ∧ (5 : Nat) ≠ 99 := by
  refine ⟨rfl, rfl, rfl, rfl, by decide, by decide⟩

/-- C9 (amended): `warmup` writes every entry with one shared TTL argument —
the ttl of the first entry in list order whose ttl is set *and nonzero* (a
ttl of `0` is skipped by the JavaScript truthiness test), with the cache
default applied when no entry has a nonzero ttl; the individual ttl values of
later entries are otherwise ignored.  Stated for distinct keys fitting within
capacity, from an empty manager with L1 enabled: every entry is stored with
the same effective TTL `jsOrDefault (firstTruthyTtl items) cfg.ttl`. -/
theorem c9_warmup_shared_ttl (cfg : CacheConfig) (hl1 : cfg.enableL1 = true)
    (items : List (WarmupItem α)) (hnd : (items.map WarmupItem.key).Nodup)
    (hlen : items.length ≤ cfg.maxSize) (now : Nat) :
    (CacheManager.warmup cfg initCacheManager now items).l1.cache =
      items.map (fun it => (it.key,
        freshItem now (jsOrDefault (firstTruthyTtl items) cfg.ttl) it.value)) := by
  have hfold : (CacheManager.warmup cfg initCacheManager now items).l1 =
      (warmupItemMap items).foldl (fun l1 it =>
        MemoryCache.set cfg l1 now it.1 it.2 (warmupCommonTtl items)) initCache := by
    unfold CacheManager.warmup CacheManager.mset
    rw [if_pos hl1]
    rfl
  have hmap : warmupItemMap items = items.map (fun it => (it.key, it.value)) := by
    unfold warmupItemMap
    rw [warmupItemMap_eq items [] (fun it _ => rfl) hnd]
    rfl
  rw [hfold, hmap]
  rw [foldSet_fresh cfg now (warmupCommonTtl items) _ initCache
    (fun q _ => ⟨rfl, rfl⟩)
    (by rw [List.map_map]; exact hnd)
    (by simpa [initCache] using hlen)]
  show ([] : List (String × CacheItem α)) ++
      (items.map (fun it => (it.key, it.value))).map (fun qq =>
        (qq.1, freshItem now (jsOrDefault (warmupCommonTtl items) cfg.ttl) qq.2)) = _
  rw [List.nil_append, List.map_map]
  have httl : jsOrDefault (warmupCommonTtl items) cfg.ttl =
      jsOrDefault (firstTruthyTtl items) cfg.ttl :=
    warmupCommonTtl_spec items none cfg.ttl rfl
  simp only [httl]
  rfl

/-- Witness for C9 (amended) at concrete inputs: both entries stored with
TTL `5` (the first nonzero ttl), skipping the leading `0`. -/
theorem c9_warmup_shared_ttl_witness :
    (CacheManager.warmup ⟨99, 10, true, false⟩ initCacheManager 0
        ([⟨"a", (1 : Nat), some 0⟩, ⟨"b", 2, some 5⟩] : List (WarmupItem Nat))).l1.cache =
      List.map (fun it => (it.key,
        freshItem 0 (jsOrDefault (firstTruthyTtl
          ([⟨"a", (1 : Nat), some 0⟩, ⟨"b", 2, some 5⟩] : List (WarmupItem Nat))) 99)
          it.value))
        ([⟨"a", (1 : Nat), some 0⟩, ⟨"b", 2, some 5⟩] : List (WarmupItem Nat)) :=
  c9_warmup_shared_ttl ⟨99, 10, true, false⟩ rfl
    ([⟨"a", (1 : Nat), some 0⟩, ⟨"b", 2, some 5⟩] : List (WarmupItem Nat))
    (by decide) (by decide) 0

/-! ### clearCache (claim C10) -/

/-- C10 counterexample: `clearCache` called *with* a pattern — the empty
string — clears the cache (JavaScript `if (pattern)` is falsy for `""`),
contradicting the claim that only a call with no pattern clears the tiers:
here a one-entry cache becomes empty. -/
theorem c10_empty_pattern_clears :
    (clearCache ⟨1000, 10, true, false⟩
      (CacheManager.set ⟨1000, 10, true, false⟩ initCacheManager 0 "a" (0 : Nat) none)
      (some "")).l1.cache = [] ∧
    (CacheManager.set ⟨1000, 10, true, false⟩ initCacheManager 0 "a" (0 : Nat)
      none).l1.cache ≠ [] := by
  refine ⟨rfl, ?_⟩
  decide

/-- C10 (amended): `clearCache` with any non-empty pattern leaves the entire
cache state unchanged (pattern-matched clearing is unimplemented, only a log
line runs); the cache tiers are cleared exactly when the pattern is absent
*or the empty string* (JavaScript falsiness of `""`). -/
theorem c10_clearCache_pattern_noop (cfg : CacheConfig) (cm : CacheManagerState α) :
    (∀ p : String, p ≠ "" → clearCache cfg cm (some p) = cm) ∧
    clearCache cfg cm none = CacheManager.clear cfg cm ∧
    clearCache cfg cm (some "") = CacheManager.clear cfg cm := by
  refine ⟨?_, rfl, ?_⟩
  · intro p hp
    simp [clearCache, hp]
  · simp [clearCache]

/-- Witness for C10: a concrete non-empty pattern leaves a concrete one-entry
cache untouched. -/
theorem c10_clearCache_pattern_noop_witness :
    clearCache ⟨1000, 10, true, false⟩
      (CacheManager.set ⟨1000, 10, true, false⟩ initCacheManager 0 "a" (0 : Nat) none)
      (some "song") =
    CacheManager.set ⟨1000, 10, true, false⟩ initCacheManager 0 "a" (0 : Nat) none :=
  (c10_clearCache_pattern_noop ⟨1000, 10, true, false⟩
    (CacheManager.set ⟨1000, 10, true, false⟩ initCacheManager 0 "a" (0 : Nat) none)).1
    "song" (by decide)

end ColaMusic
